import Mathlib

/-!
# Verification development for `epoch.go`

A shallow embedding of the `epoch` package: the `Time` wrapper, `MarshalJSON`
and `UnmarshalJSON`, together with the Go library routines they call
(`strings.Split`, `strings.Replace`, `strconv.ParseInt`, `strconv.FormatInt`,
`time.Unix`, `Time.UnixNano`).  Machine integers are mathematical integers with
explicit wrap-around; a Go string is a list of bytes; a run-time fault of a
slice expression is an explicit outcome.
-/

namespace Epoch

/-! ## Bytes and strings -/

/-- Go `string` / `[]byte`: a finite sequence of bytes. -/
abbrev Bytes := List UInt8

/-- Bytes of an ASCII string literal (one byte per character). -/
def ascii (s : String) : Bytes := s.toList.map (fun c => UInt8.ofNat c.toNat)

/-- The byte `'.'`. -/
def dot : UInt8 := 46

/-- The byte `'0'`. -/
def zeroByte : UInt8 := 48

/-- The byte `'+'`. -/
def plusByte : UInt8 := 43

/-- The byte `'-'`. -/
def minusByte : UInt8 := 45

/-- Test `'0' <= c && c <= '9'`. -/
def isDigit (c : UInt8) : Bool := decide (48 ≤ c.toNat) && decide (c.toNat ≤ 57)

/-! ## Machine integers -/

/-- Reduce a mathematical integer to the value of the `int64` with the same low 64 bits. -/
def wrap64 (x : Int) : Int := (x + 9223372036854775808) % 18446744073709551616 - 9223372036854775808

/-- The largest `int64`. -/
def maxInt64 : Int := 9223372036854775807

/-- The smallest `int64`. -/
def minInt64 : Int := -9223372036854775808

/-- Membership in the `int64` range. -/
def fitsInt64 (x : Int) : Prop := minInt64 ≤ x ∧ x ≤ maxInt64

instance (x : Int) : Decidable (fitsInt64 x) := by
  unfold fitsInt64; exact inferInstance

/-! ## Run-time faults and errors -/

/-- A Go run-time panic raised by a slice expression whose bound is out of range. -/
inductive Fault where
  | sliceBounds (bound : Int) (len : Nat)
  deriving DecidableEq, Repr

/-- The two causes a `*strconv.NumError` can carry. -/
inductive NumErrKind where
  | errSyntax
  | errRange
  deriving DecidableEq, Repr

/-- Go `error` values this package can return: a `*strconv.NumError` of `ParseInt`
(with the offending text `num`), or a value made by `errors.New`. -/
inductive Error where
  | numError (num : Bytes) (kind : NumErrKind)
  | new (msg : String)
  deriving DecidableEq, Repr

/-- The value of `errors.New("unexpected number of digits in timestamp")`. -/
def errUnexpectedDigits : Error := Error.new "unexpected number of digits in timestamp"

deriving instance DecidableEq for Except

/-- Go slice expression `s[:hi]` on a string: faults unless `0 <= hi <= len(s)`. -/
def sliceTo (s : Bytes) (hi : Int) : Except Fault Bytes :=
  if 0 ≤ hi ∧ hi ≤ (s.length : Int) then .ok (s.take hi.toNat)
  else .error (Fault.sliceBounds hi s.length)

/-- Go slice expression `s[lo:]` on a string: faults unless `0 <= lo <= len(s)`. -/
def sliceFrom (s : Bytes) (lo : Int) : Except Fault Bytes :=
  if 0 ≤ lo ∧ lo ≤ (s.length : Int) then .ok (s.drop lo.toNat)
  else .error (Fault.sliceBounds lo s.length)

/-! ## `strings` -/

/-- Go `strings.Split(s, sep)` for a one-byte separator: the pieces of `s` between
consecutive occurrences of `sep`; always `1 + count sep s` pieces. -/
def stringsSplit (sep : UInt8) : Bytes → List Bytes
  | [] => [[]]
  | c :: cs =>
    if c = sep then [] :: stringsSplit sep cs
    else
      match stringsSplit sep cs with
      | [] => [[c]]
      | h :: t => (c :: h) :: t

/-- Go `strings.Replace(s, old, "", 1)` for a one-byte `old`: `s` without the first
occurrence of `old`. -/
def stringsReplaceFirst (old : UInt8) : Bytes → Bytes
  | [] => []
  | c :: cs => if c = old then cs else c :: stringsReplaceFirst old cs

/-! ## `strconv` -/

/-- Go `lower(c)` of `strconv`: `c | ('x' - 'X')`. -/
def lower (c : UInt8) : Nat := if (c.toNat / 32) % 2 = 1 then c.toNat else c.toNat + 32

/-- Result of the digit loop of `strconv.ParseUint`. -/
inductive UintResult where
  | value (n : Nat)
  | bad (kind : NumErrKind)
  deriving DecidableEq, Repr

/-- The loop of Go `strconv.ParseUint(s, 10, 64)` over the bytes of `s`, with
accumulator `n`: `cutoff = maxUint64/10 + 1`, `maxVal = 1<<64 - 1`. -/
def parseUintLoop : Bytes → Nat → UintResult
  | [], n => .value n
  | c :: cs, n =>
    let d? : Option Nat :=
      if isDigit c then some (c.toNat - 48)
      else if 97 ≤ lower c ∧ lower c ≤ 122 then some (lower c - 97 + 10)
      else none
    match d? with
    | none => .bad .errSyntax
    | some d =>
      if d ≥ 10 then .bad .errSyntax
      else if n ≥ 18446744073709551615 / 10 + 1 then .bad .errRange
      else
        let n10 := (n * 10) % 18446744073709551616
        let n1 := (n10 + d) % 18446744073709551616
        if n1 < n10 ∨ n1 > 18446744073709551615 then .bad .errRange
        else parseUintLoop cs n1

/-- Go `strconv.ParseUint(s, 10, 64)`, up to the error's `Func` and `Num` fields
(filled in by `ParseInt`). -/
def ParseUint (s : Bytes) : UintResult :=
  if s = [] then .bad .errSyntax else parseUintLoop s 0

/-- Go `strconv.ParseInt(s, 10, 64)`: the returned value and the returned error. -/
def ParseInt (s : Bytes) : Int × Option Error :=
  match s with
  | [] => (0, some (.numError s .errSyntax))
  | c :: rest =>
    let neg := decide (c = minusByte)
    let body := if c = plusByte ∨ c = minusByte then rest else s
    match ParseUint body with
    | .bad .errSyntax => (0, some (.numError s .errSyntax))
    | .bad .errRange =>
      -- `un` is `maxVal` here, so one of the two range checks below fires
      if neg then (minInt64, some (.numError s .errRange))
      else (maxInt64, some (.numError s .errRange))
    | .value un =>
      if !neg ∧ un ≥ 9223372036854775808 then (maxInt64, some (.numError s .errRange))
      else if neg ∧ un > 9223372036854775808 then (minInt64, some (.numError s .errRange))
      else
        let n := wrap64 (un : Int)
        (if neg then wrap64 (-n) else n, none)

/-- The digit loop of Go `strconv.formatBits` in base 10, most significant digit
first; `fuel` bounds the number of digits produced before the last one. -/
def formatBits : Nat → Nat → Bytes → Bytes
  | 0, u, acc => UInt8.ofNat (48 + u % 10) :: acc
  | fuel + 1, u, acc =>
    if u ≥ 10 then formatBits fuel (u / 10) (UInt8.ofNat (48 + u % 10) :: acc)
    else UInt8.ofNat (48 + u) :: acc

/-- Go `strconv.FormatInt(i, 10)` for an `int64` value `i`: a `'-'` for a negative
value, then the decimal digits of the magnitude (a `uint64`, at most 20 digits). -/
def FormatInt (i : Int) : Bytes :=
  if i < 0 then minusByte :: formatBits 20 (-i).toNat [] else formatBits 20 i.toNat []

/-! ## `time` -/

/-- An instant as `time.Time` holds it, read through `Unix()` and `Nanosecond()`:
whole seconds since the Unix epoch and the nanosecond within that second. -/
structure Time where
  sec : Int
  nsec : Int
  deriving DecidableEq, Repr

/-- Go `time.Unix(sec, nsec)`: normalises `nsec` into `[0, 999999999]`. -/
def timeUnix (sec nsec : Int) : Time :=
  if nsec < 0 ∨ nsec ≥ 1000000000 then
    let n := Int.tdiv nsec 1000000000
    let sec1 := wrap64 (sec + n)
    let nsec1 := wrap64 (nsec - wrap64 (n * 1000000000))
    if nsec1 < 0 then ⟨wrap64 (sec1 - 1), wrap64 (nsec1 + 1000000000)⟩
    else ⟨sec1, nsec1⟩
  else ⟨sec, nsec⟩

/-- Go `Time.UnixNano()`: nanoseconds since the epoch as an `int64` (wraps when the
count does not fit). -/
def UnixNano (t : Time) : Int := wrap64 (t.sec * 1000000000 + t.nsec)

/-- The exact count of nanoseconds from the epoch to the instant. -/
def Time.nanos (t : Time) : Int := t.sec * 1000000000 + t.nsec

/-- A `Time` whose nanosecond field is in range, as every `time.Time` is. -/
def Time.valid (t : Time) : Prop := 0 ≤ t.nsec ∧ t.nsec < 1000000000

instance (t : Time) : Decidable t.valid := by
  unfold Time.valid; exact inferInstance

/-! ## The package -/

/-- Go `Time.MarshalJSON` (epoch.go lines 17-20): the bytes and the (nil) error. -/
def MarshalJSON (e : Time) : Bytes × Option Error :=
  let t := Int.tdiv (UnixNano e) 1000000
  (FormatInt t, none)

/-- Lines 32-42 of `UnmarshalJSON`: merge a single fraction, drop the first `'.'`,
left-pad to ten bytes.  The result is the value of `ts` at line 44. -/
def normalize (data : Bytes) : Except Fault Bytes := do
  let ts := data
  let p := stringsSplit dot ts
  let ts ← (match p with
    | [p1, p2] => do
      let z ← sliceTo (ascii "000") (3 - (p2.length : Int))
      pure (p1 ++ p2 ++ z)
    | _ => pure ts)
  let ts := stringsReplaceFirst dot ts
  if ts.length < 10 then do
    let pad ← sliceTo (ascii "0000000000") (10 - (ts.length : Int))
    pure (pad ++ ts)
  else pure ts

/-- Lines 44-73 of `UnmarshalJSON` on the normalised text `ts`, with `e` the
target before the call: the target after the call and the returned error. -/
def decodeFields (e : Time) (ts : Bytes) : Except Fault (Time × Option Error) := do
  let f ← sliceTo ts 10
  match ParseInt f with
  | (_, some err) => pure (e, some err)
  | (sec, none) =>
    let r ← (if ts.length > 10 then do
        let g ← sliceFrom ts 10
        pure (ParseInt g)
      else pure ((0 : Int), (none : Option Error)))
    match r with
    | (_, some err) => pure (e, some err)
    | (nano, none) =>
      match ts.length with
      | 10 => pure (timeUnix sec 0, none)
      | 13 => pure (timeUnix sec (wrap64 (nano * 1000000)), none)
      | 16 => pure (timeUnix sec (wrap64 (nano * 1000)), none)
      | 19 => pure (timeUnix sec nano, none)
      | _ => pure (e, some errUnexpectedDigits)

/-- Go `(*Time).UnmarshalJSON` (epoch.go lines 25-74).  `e` is the value of the
target before the call; the result is a run-time fault, or the value of the
target after the call paired with the returned error (`none` for `nil`). -/
def UnmarshalJSON (e : Time) (data : Bytes) : Except Fault (Time × Option Error) :=
  normalize data >>= decodeFields e

/-! ## Specification-side notions -/

/-- A text made only of the ASCII digits `'0'..'9'`. -/
def allDigits (s : Bytes) : Prop := ∀ c ∈ s, isDigit c = true

instance (s : Bytes) : Decidable (allDigits s) := by
  unfold allDigits; exact inferInstance

/-- Numeric value of a digit text read after the number `n`. -/
def decValFrom (n : Nat) (s : Bytes) : Nat := s.foldl (fun a c => a * 10 + (c.toNat - 48)) n

/-- Numeric value of a digit text in base 10 (the empty text has value 0). -/
def decVal (s : Bytes) : Nat := decValFrom 0 s

/-- The text of `k` characters `'0'`. -/
def zeros (k : Nat) : Bytes := List.replicate k zeroByte

/-- The unit inference of lines 55-67 as a function of the two parsed fields. -/
def inferUnit (e : Time) (len : Nat) (sec nano : Int) : Time × Option Error :=
  match len with
  | 10 => (timeUnix sec 0, none)
  | 13 => (timeUnix sec (wrap64 (nano * 1000000)), none)
  | 16 => (timeUnix sec (wrap64 (nano * 1000)), none)
  | 19 => (timeUnix sec nano, none)
  | _ => (e, some errUnexpectedDigits)

/-- Left padding of lines 38-42. -/
def leftPad (ts : Bytes) : Bytes := if ts.length < 10 then zeros (10 - ts.length) ++ ts else ts

/-- A call that returned: with success, with a `ParseInt` error, or with the digit-count
error, the target being untouched in the two error cases. -/
def returned (e : Time) (r : Except Fault (Time × Option Error)) : Prop :=
  (∃ t, r = .ok (t, none)) ∨ (∃ num kind, r = .ok (e, some (.numError num kind))) ∨
    r = .ok (e, some errUnexpectedDigits)

/-- An input with exactly one `'.'` whose fractional part has more than three bytes. -/
def longFraction (data : Bytes) : Prop :=
  ∃ p1 p2 : Bytes, data = p1 ++ [dot] ++ p2 ∧ dot ∉ p1 ∧ dot ∉ p2 ∧ 3 < p2.length

/-- The byte is one of the signs `'+'` and `'-'`. -/
def isSign (c : UInt8) : Prop := c = plusByte ∨ c = minusByte

instance (c : UInt8) : Decidable (isSign c) := by
  unfold isSign; exact inferInstance

/-- The byte of a decimal digit `d`. -/
def digitByte (d : Nat) : UInt8 := UInt8.ofNat (48 + d)

/-- Base-10 text of a natural number, most significant digit first, after the
positional digits of `Nat.digits`; zero is written `"0"`. -/
def decimalNat (n : Nat) : Bytes :=
  if n = 0 then [zeroByte] else (Nat.digits 10 n).reverse.map digitByte

/-- Base-10 text of an integer: a `'-'` in front of the text of the magnitude when the
integer is negative. -/
def decimalText (i : Int) : Bytes :=
  if i < 0 then minusByte :: decimalNat i.natAbs else decimalNat i.natAbs

/-- The nanosecond offset handed to `time.Unix` at lines 58-64, as a function of the length
of the normalised text and of the parsed trailing field. -/
def nanoOffset (len : Nat) (nano : Int) : Int :=
  if len = 13 then wrap64 (nano * 1000000)
  else if len = 16 then wrap64 (nano * 1000)
  else if len = 19 then nano
  else 0

/-! ## Lemmas on digit texts -/

theorem decValFrom_cons (n : Nat) (c : UInt8) (cs : Bytes) :
    decValFrom n (c :: cs) = decValFrom (n * 10 + (c.toNat - 48)) cs := rfl

theorem decValFrom_eq (s : Bytes) : ∀ n, decValFrom n s = n * 10 ^ s.length + decVal s := by
  induction s with
  | nil => intro n; simp [decValFrom, decVal]
  | cons c cs ih =>
    intro n
    have e1 : decVal (c :: cs) = decValFrom (0 * 10 + (c.toNat - 48)) cs := rfl
    rw [decValFrom_cons, ih, e1, ih (0 * 10 + (c.toNat - 48))]
    simp only [List.length_cons, pow_succ]
    ring

theorem decVal_cons (c : UInt8) (cs : Bytes) :
    decVal (c :: cs) = (c.toNat - 48) * 10 ^ cs.length + decVal cs := by
  rw [decVal, decValFrom_cons, decValFrom_eq]; simp

theorem decVal_append (a b : Bytes) : decVal (a ++ b) = decVal a * 10 ^ b.length + decVal b := by
  rw [decVal, decValFrom, List.foldl_append]
  exact decValFrom_eq b _

theorem allDigits_cons {c : UInt8} {cs : Bytes} :
    allDigits (c :: cs) ↔ isDigit c = true ∧ allDigits cs := by
  simp [allDigits]

theorem allDigits_append {a b : Bytes} : allDigits (a ++ b) ↔ allDigits a ∧ allDigits b := by
  simp only [allDigits, List.mem_append]
  constructor
  · intro h; exact ⟨fun c hc => h c (Or.inl hc), fun c hc => h c (Or.inr hc)⟩
  · rintro ⟨h1, h2⟩ c (hc | hc)
    · exact h1 c hc
    · exact h2 c hc

theorem isDigit_iff (c : UInt8) : isDigit c = true ↔ 48 ≤ c.toNat ∧ c.toNat ≤ 57 := by
  simp [isDigit]

theorem decVal_lt (s : Bytes) (h : allDigits s) : decVal s < 10 ^ s.length := by
  induction s with
  | nil => simp [decVal, decValFrom]
  | cons c cs ih =>
    obtain ⟨hc, hcs⟩ := allDigits_cons.mp h
    have h1 := ih hcs
    have h2 := (isDigit_iff c).mp hc
    rw [decVal_cons, List.length_cons, pow_succ]
    have h3 : (c.toNat - 48) * 10 ^ cs.length ≤ 9 * 10 ^ cs.length :=
      Nat.mul_le_mul_right _ (by omega)
    omega

theorem allDigits_take {s : Bytes} (h : allDigits s) (k : Nat) : allDigits (s.take k) :=
  fun c hc => h c (List.mem_of_mem_take hc)

theorem allDigits_drop {s : Bytes} (h : allDigits s) (k : Nat) : allDigits (s.drop k) :=
  fun c hc => h c (List.mem_of_mem_drop hc)

theorem allDigits_zeros (k : Nat) : allDigits (zeros k) := by
  intro c hc
  rw [zeros, List.mem_replicate] at hc
  rw [hc.2]; rfl

theorem decVal_zeros (k : Nat) : decVal (zeros k) = 0 := by
  induction k with
  | zero => rfl
  | succ k ih =>
    have e1 : zeros (k + 1) = zeroByte :: zeros k := rfl
    have e2 : zeroByte.toNat - 48 = 0 := by decide
    rw [e1, decVal_cons, e2, ih]; simp

theorem not_dot_of_isDigit {c : UInt8} (h : isDigit c = true) : c ≠ dot := by
  intro hc; rw [hc] at h; exact absurd h (by decide)

theorem dot_not_mem_of_allDigits {s : Bytes} (h : allDigits s) : dot ∉ s :=
  fun hm => not_dot_of_isDigit (h dot hm) rfl

/-! ## Lemmas on `strconv.ParseInt` -/

theorem le_decValFrom (s : Bytes) (n : Nat) : n ≤ decValFrom n s := by
  rw [decValFrom_eq]
  have : n * 1 ≤ n * 10 ^ s.length := Nat.mul_le_mul_left n (Nat.one_le_pow _ _ (by decide))
  omega

theorem parseUintLoop_digits (s : Bytes) : ∀ n, allDigits s →
    decValFrom n s < 18446744073709551616 → parseUintLoop s n = .value (decValFrom n s) := by
  induction s with
  | nil => intro n _ _; rfl
  | cons c cs ih =>
    intro n hs hlt
    obtain ⟨hc, hcs⟩ := allDigits_cons.mp hs
    have hd := (isDigit_iff c).mp hc
    rw [decValFrom_cons] at hlt ⊢
    have hle := le_decValFrom cs (n * 10 + (c.toNat - 48))
    have hrec := ih (n * 10 + (c.toNat - 48)) hcs hlt
    have e10 : n * 10 % 18446744073709551616 = n * 10 := Nat.mod_eq_of_lt (by omega)
    have e1 : (n * 10 + (c.toNat - 48)) % 18446744073709551616 = n * 10 + (c.toNat - 48) :=
      Nat.mod_eq_of_lt (by omega)
    simp only [parseUintLoop, hc, if_true, e10, e1]
    rw [if_neg (by omega), if_neg (by omega), if_neg (by omega)]
    exact hrec

theorem wrap64_of_fits {x : Int} (h1 : -9223372036854775808 ≤ x) (h2 : x ≤ 9223372036854775807) :
    wrap64 x = x := by
  unfold wrap64; omega

theorem ParseInt_digits (s : Bytes) (hne : s ≠ []) (hs : allDigits s)
    (hlt : decVal s < 9223372036854775808) : ParseInt s = ((decVal s : Int), none) := by
  cases s with
  | nil => exact absurd rfl hne
  | cons c rest =>
    obtain ⟨hc, -⟩ := allDigits_cons.mp hs
    have hp : c ≠ plusByte := by
      intro h; rw [h] at hc; exact absurd hc (by decide)
    have hm : c ≠ minusByte := by
      intro h; rw [h] at hc; exact absurd hc (by decide)
    have hu : ParseUint (c :: rest) = .value (decVal (c :: rest)) := by
      unfold ParseUint
      rw [if_neg (by simp)]
      exact parseUintLoop_digits _ 0 hs (by unfold decVal at hlt; omega)
    have hw : wrap64 ((decVal (c :: rest) : Nat) : Int) = (decVal (c :: rest) : Int) :=
      wrap64_of_fits (by omega) (by omega)
    simp only [ParseInt, hp, hm, or_self, if_false, hu, decide_False, Bool.not_false,
      true_and, false_and, hw]
    rw [if_neg (by omega)]
    simp

/-! ## Lemmas on normalisation -/

theorem stringsSplit_of_not_mem (sep : UInt8) (s : Bytes) (h : sep ∉ s) :
    stringsSplit sep s = [s] := by
  induction s with
  | nil => rfl
  | cons c cs ih =>
    have hc : c ≠ sep := fun e => h (by simp [e])
    have hcs : sep ∉ cs := fun e => h (List.mem_cons_of_mem _ e)
    simp [stringsSplit, hc, ih hcs]

theorem stringsReplaceFirst_of_not_mem (old : UInt8) (s : Bytes) (h : old ∉ s) :
    stringsReplaceFirst old s = s := by
  induction s with
  | nil => rfl
  | cons c cs ih =>
    have hc : c ≠ old := fun e => h (by simp [e])
    have hcs : old ∉ cs := fun e => h (List.mem_cons_of_mem _ e)
    simp [stringsReplaceFirst, hc, ih hcs]

theorem take_tenZeros (k : Nat) (h : k ≤ 10) : (ascii "0000000000").take k = zeros k := by
  interval_cases k <;> rfl

theorem take_threeZeros (k : Nat) (h : k ≤ 3) : (ascii "000").take k = zeros k := by
  interval_cases k <;> rfl

/-- Normalisation of a text without `'.'`: only the left padding acts. -/
theorem normalize_of_no_dot (s : Bytes) (h : dot ∉ s) :
    normalize s = .ok (if s.length < 10 then zeros (10 - s.length) ++ s else s) := by
  simp only [normalize, stringsSplit_of_not_mem dot s h, pure, Except.pure, bind, Except.bind,
    stringsReplaceFirst_of_not_mem dot s h]
  by_cases hl : s.length < 10
  · have h1 : (0 : Int) ≤ 10 - (s.length : Int) ∧
        10 - (s.length : Int) ≤ ((ascii "0000000000").length : Int) := by
      have : (ascii "0000000000").length = 10 := rfl
      rw [this]; omega
    have h2 : (10 - (s.length : Int)).toNat = 10 - s.length := by omega
    simp only [hl, if_true, sliceTo, h1, and_self, h2, take_tenZeros _ (Nat.sub_le _ _)]
  · simp only [hl, if_false]

theorem timeUnix_of_inRange (sec nsec : Int) (h0 : 0 ≤ nsec) (h1 : nsec < 1000000000) :
    timeUnix sec nsec = ⟨sec, nsec⟩ := by
  unfold timeUnix
  rw [if_neg (by omega)]

/-! ## Lemmas on the field decoding -/

theorem sliceTo_ten (ts : Bytes) (h : 10 ≤ ts.length) : sliceTo ts 10 = .ok (ts.take 10) := by
  unfold sliceTo
  rw [if_pos ⟨by omega, by omega⟩]; rfl

theorem sliceFrom_ten (ts : Bytes) (h : 10 ≤ ts.length) : sliceFrom ts 10 = .ok (ts.drop 10) := by
  unfold sliceFrom
  rw [if_pos ⟨by omega, by omega⟩]; rfl

theorem decodeFields_secErr (e : Time) (ts : Bytes) (h : 10 ≤ ts.length) (v : Int) (err : Error)
    (hsec : ParseInt (ts.take 10) = (v, some err)) : decodeFields e ts = .ok (e, some err) := by
  simp only [decodeFields, sliceTo_ten ts h, bind, Except.bind, hsec, pure, Except.pure]

theorem decodeFields_nanoErr (e : Time) (ts : Bytes) (h : 10 < ts.length) (sec v : Int)
    (err : Error) (hsec : ParseInt (ts.take 10) = (sec, none))
    (hnano : ParseInt (ts.drop 10) = (v, some err)) : decodeFields e ts = .ok (e, some err) := by
  simp only [decodeFields, sliceTo_ten ts (le_of_lt h), sliceFrom_ten ts (le_of_lt h), bind,
    Except.bind, hsec, pure, Except.pure, gt_iff_lt, h, if_true, hnano]

theorem decodeFields_ten (e : Time) (ts : Bytes) (h : ts.length = 10) (sec : Int)
    (hsec : ParseInt (ts.take 10) = (sec, none)) :
    decodeFields e ts = .ok (inferUnit e ts.length sec 0) := by
  simp only [decodeFields, sliceTo_ten ts (le_of_eq h.symm), bind, Except.bind, hsec, pure,
    Except.pure, gt_iff_lt, h, lt_irrefl, if_false, inferUnit]

theorem decodeFields_long (e : Time) (ts : Bytes) (h : 10 < ts.length) (sec nano : Int)
    (hsec : ParseInt (ts.take 10) = (sec, none))
    (hnano : ParseInt (ts.drop 10) = (nano, none)) :
    decodeFields e ts = .ok (inferUnit e ts.length sec nano) := by
  simp only [decodeFields, sliceTo_ten ts (le_of_lt h), sliceFrom_ten ts (le_of_lt h), bind,
    Except.bind, hsec, pure, Except.pure, gt_iff_lt, h, if_true, hnano, inferUnit]
  split <;> rfl

theorem UnmarshalJSON_of_normalize (e : Time) (data ts : Bytes) (h : normalize data = .ok ts) :
    UnmarshalJSON e data = decodeFields e ts := by
  unfold UnmarshalJSON; rw [h]; rfl

theorem ParseInt_take_ten (ts : Bytes) (hs : allDigits ts) (h : 10 ≤ ts.length) :
    ParseInt (ts.take 10) = ((decVal (ts.take 10) : Int), none) := by
  have hl : (ts.take 10).length = 10 := by rw [List.length_take]; omega
  have hlt := decVal_lt _ (allDigits_take hs 10)
  rw [hl] at hlt
  refine ParseInt_digits _ ?_ (allDigits_take hs 10) (by omega)
  intro hnil; rw [hnil] at hl; simp at hl

theorem ParseInt_drop_ten (ts : Bytes) (hs : allDigits ts) (h : 10 < ts.length)
    (h19 : ts.length ≤ 28) : ParseInt (ts.drop 10) = ((decVal (ts.drop 10) : Int), none) := by
  have hl : (ts.drop 10).length = ts.length - 10 := List.length_drop _ _
  have hlt := decVal_lt _ (allDigits_drop hs 10)
  have hpow : 10 ^ (ts.drop 10).length ≤ 10 ^ 18 :=
    Nat.pow_le_pow_right (by decide) (by omega)
  refine ParseInt_digits _ ?_ (allDigits_drop hs 10) ?_
  · intro hnil; rw [hnil] at hl; simp at hl; omega
  · have : (10 : Nat) ^ 18 < 9223372036854775808 := by norm_num
    omega

/-- Decoding of an all-digit normalised text of an accepted length. -/
theorem decodeFields_digits (e : Time) (ts : Bytes) (hs : allDigits ts)
    (hl : ts.length = 10 ∨ ts.length = 13 ∨ ts.length = 16 ∨ ts.length = 19) :
    decodeFields e ts = .ok (⟨(decVal (ts.take 10) : Int),
      ((decVal (ts.drop 10) * 10 ^ (19 - ts.length) : Nat) : Int)⟩, none) := by
  have hsec := ParseInt_take_ten ts hs (by omega)
  have hd := decVal_lt _ (allDigits_drop hs 10)
  rw [List.length_drop] at hd
  rcases hl with h | h | h | h
  · rw [decodeFields_ten e ts h _ hsec, h]
    have hnil : ts.drop 10 = [] := List.drop_eq_nil_of_le (by omega)
    simp [inferUnit, hnil, decVal, decValFrom, timeUnix_of_inRange]
  · rw [decodeFields_long e ts (by omega) _ _ hsec (ParseInt_drop_ten ts hs (by omega) (by omega))]
    rw [h] at hd ⊢
    have hd3 : decVal (ts.drop 10) < 1000 := by simpa using hd
    simp only [inferUnit]
    rw [wrap64_of_fits (by omega) (by omega), timeUnix_of_inRange _ _ (by omega) (by omega)]
    simp
  · rw [decodeFields_long e ts (by omega) _ _ hsec (ParseInt_drop_ten ts hs (by omega) (by omega))]
    rw [h] at hd ⊢
    have hd3 : decVal (ts.drop 10) < 1000000 := by simpa using hd
    simp only [inferUnit]
    rw [wrap64_of_fits (by omega) (by omega), timeUnix_of_inRange _ _ (by omega) (by omega)]
    simp
  · rw [decodeFields_long e ts (by omega) _ _ hsec (ParseInt_drop_ten ts hs (by omega) (by omega))]
    rw [h] at hd ⊢
    have hd3 : decVal (ts.drop 10) < 1000000000 := by simpa using hd
    simp only [inferUnit]
    rw [timeUnix_of_inRange _ _ (by omega) (by omega)]
    simp

/-- Decoding of an all-digit input of an accepted length. -/
theorem UnmarshalJSON_digits (e : Time) (s : Bytes) (hs : allDigits s)
    (hl : s.length = 10 ∨ s.length = 13 ∨ s.length = 16 ∨ s.length = 19) :
    UnmarshalJSON e s = .ok (⟨(decVal (s.take 10) : Int),
        ((decVal (s.drop 10) * 10 ^ (19 - s.length) : Nat) : Int)⟩, none) := by
  have hn := normalize_of_no_dot s (dot_not_mem_of_allDigits hs)
  rw [if_neg (by omega)] at hn
  rw [UnmarshalJSON_of_normalize e s s hn]
  exact decodeFields_digits e s hs hl

/-- C1: an all-digit text of 10, 13, 16 or 19 characters decodes without error to the
instant whose seconds are the value of the first ten characters and whose nanosecond
offset is the value of the remaining characters scaled by `10^(19-L)`: milliseconds
for 13, microseconds for 16 and nanoseconds for 19 characters. -/
theorem unmarshal_digits_by_length (e : Time) (s : Bytes) (hs : allDigits s)
    (hl : s.length = 10 ∨ s.length = 13 ∨ s.length = 16 ∨ s.length = 19) :
    UnmarshalJSON e s = .ok (⟨(decVal (s.take 10) : Int),
        ((decVal (s.drop 10) * 10 ^ (19 - s.length) : Nat) : Int)⟩, none) ∧
      Time.nanos ⟨(decVal (s.take 10) : Int),
        ((decVal (s.drop 10) * 10 ^ (19 - s.length) : Nat) : Int)⟩ =
        (decVal (s.take 10) : Int) * 1000000000 +
          (decVal (s.drop 10) : Int) * 10 ^ (19 - s.length) := by
  exact ⟨UnmarshalJSON_digits e s hs hl, by simp [Time.nanos]⟩

/-- Witness for C1 at the four texts named in the claim. -/
theorem unmarshal_digits_by_length_witness :
    UnmarshalJSON ⟨0, 0⟩ (ascii "1609459200") = .ok (⟨1609459200, 0⟩, none) ∧
    UnmarshalJSON ⟨0, 0⟩ (ascii "1609459200123") = .ok (⟨1609459200, 123000000⟩, none) ∧
    UnmarshalJSON ⟨0, 0⟩ (ascii "1609459200123456") = .ok (⟨1609459200, 123456000⟩, none) ∧
    UnmarshalJSON ⟨0, 0⟩ (ascii "1609459200123456789") =
      .ok (⟨1609459200, 123456789⟩, none) :=
  ⟨(unmarshal_digits_by_length ⟨0, 0⟩ (ascii "1609459200") (by decide) (by decide)).1,
   (unmarshal_digits_by_length ⟨0, 0⟩ (ascii "1609459200123") (by decide) (by decide)).1,
   (unmarshal_digits_by_length ⟨0, 0⟩ (ascii "1609459200123456") (by decide) (by decide)).1,
   (unmarshal_digits_by_length ⟨0, 0⟩ (ascii "1609459200123456789") (by decide) (by decide)).1⟩

theorem length_zeros (k : Nat) : (zeros k).length = k := by simp [zeros]

theorem decVal_zeros_append (k : Nat) (s : Bytes) : decVal (zeros k ++ s) = decVal s := by
  rw [decVal_append, decVal_zeros]; simp

/-- Decoding of an all-digit input shorter than ten characters. -/
theorem UnmarshalJSON_short (e : Time) (s : Bytes) (hs : allDigits s) (hl : s.length < 10) :
    UnmarshalJSON e s = .ok (⟨(decVal s : Int), 0⟩, none) ∧
      UnmarshalJSON e s = UnmarshalJSON e (zeros (10 - s.length) ++ s) := by
  have hn := normalize_of_no_dot s (dot_not_mem_of_allDigits hs)
  rw [if_pos hl] at hn
  have hp : allDigits (zeros (10 - s.length) ++ s) :=
    allDigits_append.mpr ⟨allDigits_zeros _, hs⟩
  have hlen : (zeros (10 - s.length) ++ s).length = 10 := by
    rw [List.length_append, length_zeros]; omega
  have hn2 := normalize_of_no_dot _ (dot_not_mem_of_allDigits hp)
  rw [if_neg (by omega)] at hn2
  have hd := decodeFields_digits e _ hp (Or.inl hlen)
  have ht : (zeros (10 - s.length) ++ s).take 10 = zeros (10 - s.length) ++ s :=
    List.take_of_length_le (by omega)
  have hdr : (zeros (10 - s.length) ++ s).drop 10 = [] := List.drop_eq_nil_of_le (by omega)
  rw [ht, hdr, decVal_zeros_append] at hd
  refine ⟨?_, ?_⟩
  · rw [UnmarshalJSON_of_normalize e s _ hn, hd]
    simp [decVal, decValFrom]
  · rw [UnmarshalJSON_of_normalize e s _ hn, UnmarshalJSON_of_normalize e _ _ hn2]

/-- C7: an all-digit text shorter than ten characters (the empty text included) decodes
without error to exactly its numeric value in whole seconds after the epoch, with a zero
sub-second part, which is also the outcome of decoding the text left-padded with `'0'`
to ten characters. -/
theorem unmarshal_short_digits (e : Time) (s : Bytes) (hs : allDigits s) (hl : s.length < 10) :
    UnmarshalJSON e s = .ok (⟨(decVal s : Int), 0⟩, none) ∧
      UnmarshalJSON e s = UnmarshalJSON e (zeros (10 - s.length) ++ s) :=
  UnmarshalJSON_short e s hs hl

/-- Witness for C7: `"5"` decodes to 5 seconds after the epoch, like `"0000000005"`. -/
theorem unmarshal_short_digits_witness :
    UnmarshalJSON ⟨0, 0⟩ (ascii "5") = .ok (⟨5, 0⟩, none) ∧
      UnmarshalJSON ⟨0, 0⟩ (ascii "5") = UnmarshalJSON ⟨0, 0⟩ (ascii "0000000005") :=
  unmarshal_short_digits ⟨0, 0⟩ (ascii "5") (by decide) (by decide)

/-- C4: on an all-digit input the decoder returns no error exactly when the input has at
most 10 characters or exactly 13, 16 or 19; on every other length it returns an error and
leaves the target as it was. -/
theorem unmarshal_digits_accept_iff (e : Time) (s : Bytes) (hs : allDigits s) :
    ((∃ t, UnmarshalJSON e s = .ok (t, none)) ↔
        (s.length ≤ 10 ∨ s.length = 13 ∨ s.length = 16 ∨ s.length = 19)) ∧
      (¬ (s.length ≤ 10 ∨ s.length = 13 ∨ s.length = 16 ∨ s.length = 19) →
        ∃ err, UnmarshalJSON e s = .ok (e, some err)) := by
  have hrej : ¬ (s.length ≤ 10 ∨ s.length = 13 ∨ s.length = 16 ∨ s.length = 19) →
      ∃ err, UnmarshalJSON e s = .ok (e, some err) := by
    intro hl
    have hn := normalize_of_no_dot s (dot_not_mem_of_allDigits hs)
    rw [if_neg (by omega)] at hn
    rw [UnmarshalJSON_of_normalize e s s hn]
    have hsec := ParseInt_take_ten s hs (by omega)
    rcases hp : ParseInt (s.drop 10) with ⟨v, _ | err⟩
    · refine ⟨errUnexpectedDigits, ?_⟩
      rw [decodeFields_long e s (by omega) _ _ hsec hp]
      unfold inferUnit
      split <;> first | omega | rfl
    · exact ⟨err, decodeFields_nanoErr e s (by omega) _ _ _ hsec hp⟩
  refine ⟨⟨?_, ?_⟩, hrej⟩
  · rintro ⟨t, ht⟩
    by_contra hl
    obtain ⟨err, herr⟩ := hrej hl
    rw [herr] at ht
    simp at ht
  · intro hl
    by_cases h10 : s.length < 10
    · exact ⟨_, (UnmarshalJSON_short e s hs h10).1⟩
    · exact ⟨_, UnmarshalJSON_digits e s hs (by omega)⟩

/-- Witness for C4: the 12-digit text `"160945920012"` is rejected, the 13-digit text
`"1609459200123"` is accepted. -/
theorem unmarshal_digits_accept_iff_witness :
    (∃ err, UnmarshalJSON ⟨0, 0⟩ (ascii "160945920012") = .ok (⟨0, 0⟩, some err)) ∧
      (∃ t, UnmarshalJSON ⟨0, 0⟩ (ascii "1609459200123") = .ok (t, none)) :=
  ⟨(unmarshal_digits_accept_iff ⟨0, 0⟩ (ascii "160945920012") (by decide)).2 (by decide),
   (unmarshal_digits_accept_iff ⟨0, 0⟩ (ascii "1609459200123") (by decide)).1.2 (by decide)⟩

/-! ## Inputs with one fraction separator -/

theorem stringsSplit_cons_ne (sep c : UInt8) (cs : Bytes) (h : c ≠ sep) :
    stringsSplit sep (c :: cs) =
      match stringsSplit sep cs with
      | [] => [[c]]
      | h :: t => (c :: h) :: t := by
  simp [stringsSplit, h]

theorem stringsSplit_dot_cons (p1 p2 : Bytes) (h1 : dot ∉ p1) (h2 : dot ∉ p2) :
    stringsSplit dot (p1 ++ dot :: p2) = [p1, p2] := by
  induction p1 with
  | nil => simp [stringsSplit, stringsSplit_of_not_mem dot p2 h2]
  | cons c cs ih =>
    have hc : c ≠ dot := fun e => h1 (by simp [e])
    have hcs : dot ∉ cs := fun e => h1 (List.mem_cons_of_mem _ e)
    rw [List.cons_append, stringsSplit_cons_ne dot c _ hc, ih hcs]

theorem stringsSplit_one_dot (p1 p2 : Bytes) (h1 : dot ∉ p1) (h2 : dot ∉ p2) :
    stringsSplit dot (p1 ++ [dot] ++ p2) = [p1, p2] := by
  rw [List.append_assoc, List.singleton_append]
  exact stringsSplit_dot_cons p1 p2 h1 h2

theorem dot_not_mem_zeros (k : Nat) : dot ∉ zeros k :=
  dot_not_mem_of_allDigits (allDigits_zeros k)

theorem sliceTo_threeZeros (p2 : Bytes) (h : p2.length ≤ 3) :
    sliceTo (ascii "000") (3 - (p2.length : Int)) = .ok (zeros (3 - p2.length)) := by
  have hlen : (ascii "000").length = 3 := rfl
  have h2 : (3 - (p2.length : Int)).toNat = 3 - p2.length := by omega
  unfold sliceTo
  rw [if_pos ⟨by omega, by rw [hlen]; omega⟩, h2, take_threeZeros _ (Nat.sub_le _ _)]

/-- With one `'.'` and a fraction of at most three bytes, normalisation is that of the
text with the fraction right-padded with `'0'` to three bytes and the `'.'` left out. -/
theorem normalize_one_dot (p1 p2 : Bytes) (h1 : dot ∉ p1) (h2 : dot ∉ p2)
    (h3 : p2.length ≤ 3) :
    normalize (p1 ++ [dot] ++ p2) = normalize (p1 ++ p2 ++ zeros (3 - p2.length)) := by
  have hnd : dot ∉ p1 ++ p2 ++ zeros (3 - p2.length) := by
    simp only [List.mem_append, not_or]
    exact ⟨⟨h1, h2⟩, dot_not_mem_zeros _⟩
  rw [normalize_of_no_dot _ hnd]
  simp only [normalize, stringsSplit_one_dot p1 p2 h1 h2, sliceTo_threeZeros p2 h3, pure,
    Except.pure, bind, Except.bind, stringsReplaceFirst_of_not_mem dot _ hnd]
  by_cases hl : (p1 ++ p2 ++ zeros (3 - p2.length)).length < 10
  · have hlen : (ascii "0000000000").length = 10 := rfl
    have e2 : (10 - ((p1 ++ p2 ++ zeros (3 - p2.length)).length : Int)).toNat =
        10 - (p1 ++ p2 ++ zeros (3 - p2.length)).length := by omega
    simp only [hl, if_true, sliceTo]
    rw [if_pos ⟨by omega, by rw [hlen]; omega⟩, e2, take_tenZeros _ (Nat.sub_le _ _)]
  · simp only [hl, if_false]

/-- C8: with `P1`, `P2` free of `'.'` and `P2` of at most three bytes, decoding
`P1 ++ "." ++ P2` has the same outcome as decoding `P1 ++ P2 ++ z` with `z` made of
`3 - len(P2)` zeros; when `P1` is ten digits and `P2` digits, that outcome is `P1` seconds
plus `P2` right-padded to three digits, in milliseconds. -/
theorem unmarshal_fraction_as_millis (e : Time) (p1 p2 : Bytes) (h1 : dot ∉ p1)
    (h2 : dot ∉ p2) (h3 : p2.length ≤ 3) :
    UnmarshalJSON e (p1 ++ [dot] ++ p2) =
        UnmarshalJSON e (p1 ++ p2 ++ zeros (3 - p2.length)) ∧
      (allDigits p1 → p1.length = 10 → allDigits p2 →
        UnmarshalJSON e (p1 ++ [dot] ++ p2) =
          .ok (⟨(decVal p1 : Int),
            ((decVal (p2 ++ zeros (3 - p2.length)) : Nat) : Int) * 1000000⟩, none)) := by
  have heq : UnmarshalJSON e (p1 ++ [dot] ++ p2) =
      UnmarshalJSON e (p1 ++ p2 ++ zeros (3 - p2.length)) := by
    unfold UnmarshalJSON
    rw [normalize_one_dot p1 p2 h1 h2 h3]
  refine ⟨heq, ?_⟩
  intro hd1 hl1 hd2
  have hall : allDigits (p1 ++ p2 ++ zeros (3 - p2.length)) :=
    allDigits_append.mpr ⟨allDigits_append.mpr ⟨hd1, hd2⟩, allDigits_zeros _⟩
  have hlen : (p1 ++ p2 ++ zeros (3 - p2.length)).length = 13 := by
    simp only [List.length_append, length_zeros]; omega
  have hk := UnmarshalJSON_digits e _ hall (Or.inr (Or.inl hlen))
  have ht : (p1 ++ p2 ++ zeros (3 - p2.length)).take 10 = p1 := by
    rw [List.append_assoc]; exact List.take_left' hl1
  have hdr : (p1 ++ p2 ++ zeros (3 - p2.length)).drop 10 = p2 ++ zeros (3 - p2.length) := by
    rw [List.append_assoc]; exact List.drop_left' hl1
  rw [heq, hk, ht, hdr, hlen]
  simp

/-- Witness for C8: `"1609459200.123"` decodes like `"1609459200123"`. -/
theorem unmarshal_fraction_as_millis_witness :
    UnmarshalJSON ⟨0, 0⟩ (ascii "1609459200.123") =
        UnmarshalJSON ⟨0, 0⟩ (ascii "1609459200123") ∧
      UnmarshalJSON ⟨0, 0⟩ (ascii "1609459200.123") =
        .ok (⟨1609459200, 123000000⟩, none) :=
  ⟨(unmarshal_fraction_as_millis ⟨0, 0⟩ (ascii "1609459200") (ascii "123")
      (by decide) (by decide) (by decide)).1,
   (unmarshal_fraction_as_millis ⟨0, 0⟩ (ascii "1609459200") (ascii "123")
      (by decide) (by decide) (by decide)).2 (by decide) (by decide) (by decide)⟩

/-! ## The outcomes of a call -/

theorem leftPad_length (ts : Bytes) : 10 ≤ (leftPad ts).length := by
  unfold leftPad
  split
  · rw [List.length_append, length_zeros]; omega
  · omega

theorem sliceTo_tenZeros (ts : Bytes) (h : ts.length < 10) :
    sliceTo (ascii "0000000000") (10 - (ts.length : Int)) = .ok (zeros (10 - ts.length)) := by
  have hlen : (ascii "0000000000").length = 10 := rfl
  have h2 : (10 - (ts.length : Int)).toNat = 10 - ts.length := by omega
  unfold sliceTo
  rw [if_pos ⟨by omega, by rw [hlen]; omega⟩, h2, take_tenZeros _ (Nat.sub_le _ _)]

theorem sliceTo_threeZeros_fault (p2 : Bytes) (h : 3 < p2.length) :
    sliceTo (ascii "000") (3 - (p2.length : Int)) =
      .error (Fault.sliceBounds (3 - (p2.length : Int)) 3) := by
  unfold sliceTo
  rw [if_neg (by omega)]; rfl

/-- Lines 32-42 in closed form: the only fault is the slice of `"000"` at line 34. -/
theorem normalize_eq (data : Bytes) :
    normalize data =
      match stringsSplit dot data with
      | [p1, p2] =>
        if p2.length ≤ 3 then
          .ok (leftPad (stringsReplaceFirst dot (p1 ++ p2 ++ zeros (3 - p2.length))))
        else .error (Fault.sliceBounds (3 - (p2.length : Int)) 3)
      | _ => .ok (leftPad (stringsReplaceFirst dot data)) := by
  have hpad : ∀ ts : Bytes,
      (if ts.length < 10 then
          (sliceTo (ascii "0000000000") (10 - (ts.length : Int))).bind
            (fun pad => Except.ok (pad ++ ts))
        else Except.ok ts) = Except.ok (leftPad ts) := by
    intro ts
    unfold leftPad
    by_cases hl : ts.length < 10
    · simp only [hl, if_true, sliceTo_tenZeros ts hl, Except.bind]
    · simp only [hl, if_false]
  unfold normalize
  simp only [pure, Except.pure, bind]
  split
  · rename_i p1 p2 _
    by_cases h3 : p2.length ≤ 3
    · simp only [sliceTo_threeZeros p2 h3, Except.bind, h3, if_true]
      exact hpad _
    · simp only [sliceTo_threeZeros_fault p2 (by omega), Except.bind, h3, if_false]
  · simp only [Except.bind]
    exact hpad _

theorem normalize_length (data ts : Bytes) (h : normalize data = .ok ts) : 10 ≤ ts.length := by
  rw [normalize_eq] at h
  split at h
  · split at h
    · injection h with h; rw [← h]; exact leftPad_length _
    · cases h
  · injection h with h; rw [← h]; exact leftPad_length _

theorem ParseInt_err (s : Bytes) (v : Int) (err : Error) (h : ParseInt s = (v, some err)) :
    ∃ kind, err = .numError s kind := by
  unfold ParseInt at h
  split at h
  · injection h with _ h2; injection h2 with h2; exact ⟨_, h2.symm⟩
  · dsimp only at h
    split at h
    · injection h with _ h2; injection h2 with h2; exact ⟨_, h2.symm⟩
    · split at h <;> (injection h with _ h2; injection h2 with h2; exact ⟨_, h2.symm⟩)
    · split at h
      · injection h with _ h2; injection h2 with h2; exact ⟨_, h2.symm⟩
      · split at h
        · injection h with _ h2; injection h2 with h2; exact ⟨_, h2.symm⟩
        · injection h with _ h2; cases h2

/-- Lines 44-73 never fault on a text of at least ten bytes, and end in one of three ways. -/
theorem decodeFields_returned (e : Time) (ts : Bytes) (h : 10 ≤ ts.length) :
    returned e (decodeFields e ts) := by
  rcases hsec : ParseInt (ts.take 10) with ⟨sec, _ | err⟩
  · by_cases h10 : ts.length = 10
    · rw [decodeFields_ten e ts h10 sec hsec, h10]
      exact Or.inl ⟨_, rfl⟩
    · have hlt : 10 < ts.length := by omega
      rcases hnano : ParseInt (ts.drop 10) with ⟨nano, _ | err⟩
      · rw [decodeFields_long e ts hlt sec nano hsec hnano]
        unfold inferUnit
        split
        · exact Or.inl ⟨_, rfl⟩
        · exact Or.inl ⟨_, rfl⟩
        · exact Or.inl ⟨_, rfl⟩
        · exact Or.inl ⟨_, rfl⟩
        · exact Or.inr (Or.inr rfl)
      · rw [decodeFields_nanoErr e ts hlt sec nano err hsec hnano]
        obtain ⟨kind, hk⟩ := ParseInt_err _ _ _ hnano
        exact Or.inr (Or.inl ⟨_, kind, by rw [hk]⟩)
  · rw [decodeFields_secErr e ts h sec err hsec]
    obtain ⟨kind, hk⟩ := ParseInt_err _ _ _ hsec
    exact Or.inr (Or.inl ⟨_, kind, by rw [hk]⟩)

/-- Every call either faults at line 34, which happens exactly when the input has one
`'.'` followed by more than three bytes, or returns in one of the three ways. -/
theorem UnmarshalJSON_outcome (e : Time) (data : Bytes) :
    match stringsSplit dot data with
    | [_, p2] =>
      if p2.length ≤ 3 then returned e (UnmarshalJSON e data)
      else UnmarshalJSON e data = .error (Fault.sliceBounds (3 - (p2.length : Int)) 3)
    | _ => returned e (UnmarshalJSON e data) := by
  have key : ∀ ts, normalize data = .ok ts → returned e (UnmarshalJSON e data) := by
    intro ts hts
    rw [UnmarshalJSON_of_normalize e data ts hts]
    exact decodeFields_returned e ts (normalize_length data ts hts)
  have hn := normalize_eq data
  split
  · rename_i p1 p2 hsp
    rw [hsp] at hn
    by_cases h3 : p2.length ≤ 3
    · simp only [h3, if_true] at hn ⊢
      exact key _ hn
    · simp only [h3, if_false] at hn ⊢
      unfold UnmarshalJSON
      rw [hn]; rfl
  · rename_i hsp
    split at hn
    · rename_i p1 p2 hsp2
      exact absurd hsp2 (hsp p1 p2)
    · exact key _ hn

/-! ## The fault at line 34 -/

theorem stringsSplit_ne_nil (sep : UInt8) (s : Bytes) : stringsSplit sep s ≠ [] := by
  cases s with
  | nil => simp [stringsSplit]
  | cons c cs =>
    unfold stringsSplit
    split
    · simp
    · split <;> simp

theorem stringsSplit_eq_single (sep : UInt8) (s q : Bytes) (h : stringsSplit sep s = [q]) :
    s = q ∧ sep ∉ s := by
  induction s generalizing q with
  | nil =>
    simp only [stringsSplit, List.cons.injEq, and_true] at h
    exact ⟨h, by simp⟩
  | cons c cs ih =>
    by_cases hc : c = sep
    · simp only [stringsSplit, hc, if_true, List.cons.injEq] at h
      exact absurd h.2 (stringsSplit_ne_nil sep cs)
    · rw [stringsSplit_cons_ne sep c cs hc] at h
      split at h
      · rename_i hnil
        exact absurd hnil (stringsSplit_ne_nil sep cs)
      · rename_i hd tl heq
        simp only [List.cons.injEq] at h
        rw [h.2] at heq
        obtain ⟨e1, e2⟩ := ih hd heq
        refine ⟨by rw [← h.1, e1], ?_⟩
        intro hm
        rcases List.mem_cons.mp hm with hm | hm
        · exact hc hm.symm
        · exact e2 hm

theorem stringsSplit_eq_pair (sep : UInt8) (s p1 p2 : Bytes)
    (h : stringsSplit sep s = [p1, p2]) : s = p1 ++ [sep] ++ p2 ∧ sep ∉ p1 ∧ sep ∉ p2 := by
  induction s generalizing p1 with
  | nil => simp [stringsSplit] at h
  | cons c cs ih =>
    by_cases hc : c = sep
    · simp only [stringsSplit, hc, if_true, List.cons.injEq] at h
      obtain ⟨e1, e2⟩ := stringsSplit_eq_single sep cs p2 h.2
      refine ⟨by rw [← h.1, hc, e1]; rfl, by rw [← h.1]; simp, by rw [← e1]; exact e2⟩
    · rw [stringsSplit_cons_ne sep c cs hc] at h
      split at h
      · simp at h
      · rename_i hd tl heq
        simp only [List.cons.injEq] at h
        rw [h.2] at heq
        obtain ⟨e1, e2, e3⟩ := ih hd heq
        refine ⟨by rw [← h.1, e1]; rfl, ?_, e3⟩
        rw [← h.1]
        intro hm
        rcases List.mem_cons.mp hm with hm | hm
        · exact hc hm.symm
        · exact e2 hm

/-- An input with one `'.'` and a fraction longer than three bytes makes line 34 fault. -/
theorem UnmarshalJSON_longFraction (e : Time) (p1 p2 : Bytes) (h1 : dot ∉ p1) (h2 : dot ∉ p2)
    (h3 : 3 < p2.length) :
    UnmarshalJSON e (p1 ++ [dot] ++ p2) =
      .error (Fault.sliceBounds (3 - (p2.length : Int)) 3) := by
  have h := UnmarshalJSON_outcome e (p1 ++ [dot] ++ p2)
  rw [stringsSplit_one_dot p1 p2 h1 h2] at h
  simpa [show ¬ p2.length ≤ 3 by omega] using h

theorem not_returned_of_fault (e : Time) (r : Except Fault (Time × Option Error)) (f : Fault)
    (h : r = .error f) : ¬ returned e r := by
  rw [h]
  rintro (⟨t, ht⟩ | ⟨num, kind, ht⟩ | ht) <;> cases ht

/-- C9, evaluated: `"1609459200.123456"` and `"1609459200.1234"` make the slice
`"000"[:3-len(p2)]` fault (bounds -3 and -1), whereas `"1609459200123456"` decodes to
microseconds and `"16094592001234"` returns the digit-count error. -/
theorem unmarshal_long_fraction_faults :
    UnmarshalJSON ⟨0, 0⟩ (ascii "1609459200.123456") = .error (Fault.sliceBounds (-3) 3) ∧
    UnmarshalJSON ⟨0, 0⟩ (ascii "1609459200123456") = .ok (⟨1609459200, 123456000⟩, none) ∧
    UnmarshalJSON ⟨0, 0⟩ (ascii "1609459200.1234") = .error (Fault.sliceBounds (-1) 3) ∧
    UnmarshalJSON ⟨0, 0⟩ (ascii "16094592001234") = .ok (⟨0, 0⟩, some errUnexpectedDigits) := by
  refine ⟨?_, ?_, ?_, ?_⟩ <;> decide

/-- C10, as the code has it: a call faults exactly on the inputs with one `'.'` followed by
more than three bytes (the slice `"000"[:3-len(p2)]` of line 34 then has a negative bound);
on every other input it returns with success, a `ParseInt` error or the digit-count
error. -/
theorem unmarshal_fault_iff_long_fraction (e : Time) (data : Bytes) :
    ((∃ f, UnmarshalJSON e data = .error f) ↔ longFraction data) ∧
      (¬ longFraction data → returned e (UnmarshalJSON e data)) := by
  have h := UnmarshalJSON_outcome e data
  have hlf : longFraction data → ∃ f, UnmarshalJSON e data = .error f := by
    rintro ⟨p1, p2, hd, h1, h2, h3⟩
    exact ⟨_, by rw [hd]; exact UnmarshalJSON_longFraction e p1 p2 h1 h2 h3⟩
  have hret : ¬ longFraction data → returned e (UnmarshalJSON e data) := by
    intro hn
    split at h
    · rename_i p1 p2 hsp
      by_cases h3 : p2.length ≤ 3
      · simpa [h3] using h
      · obtain ⟨e1, e2, e3⟩ := stringsSplit_eq_pair dot data p1 p2 hsp
        exact absurd ⟨p1, p2, e1, e2, e3, by omega⟩ hn
    · exact h
  refine ⟨⟨?_, hlf⟩, hret⟩
  rintro ⟨f, hf⟩
  by_contra hn
  exact not_returned_of_fault e _ f hf (hret hn)

/-! ## Malformed fields -/

theorem parseUintLoop_nondigit (s : Bytes) (c : UInt8) (hc : c ∈ s) (hd : isDigit c = false) :
    ∀ n, ∃ kind, parseUintLoop s n = .bad kind := by
  induction s with
  | nil => simp at hc
  | cons x xs ih =>
    intro n
    by_cases hx : isDigit x = true
    · have hmem : c ∈ xs := by
        rcases List.mem_cons.mp hc with h | h
        · rw [h, hx] at hd; cases hd
        · exact h
      simp only [parseUintLoop, hx, if_true]
      split
      · exact ⟨_, rfl⟩
      · split
        · exact ⟨_, rfl⟩
        · split
          · exact ⟨_, rfl⟩
          · exact ih hmem _
    · have hx2 : isDigit x = false := by simpa using hx
      by_cases hl : 97 ≤ lower x ∧ lower x ≤ 122
      · simp only [parseUintLoop, hx2, Bool.false_eq_true, if_false, hl, and_self, if_true]
        rw [if_pos (by omega)]
        exact ⟨_, rfl⟩
      · simp only [parseUintLoop, hx2, Bool.false_eq_true, if_false, hl]
        exact ⟨_, rfl⟩

theorem ParseUint_nondigit (s : Bytes) (c : UInt8) (hc : c ∈ s) (hd : isDigit c = false) :
    ∃ kind, ParseUint s = .bad kind := by
  unfold ParseUint
  split
  · exact ⟨_, rfl⟩
  · exact parseUintLoop_nondigit s c hc hd 0

theorem ParseInt_of_bad (c : UInt8) (rest : Bytes) (kind : NumErrKind)
    (h : ParseUint (if c = plusByte ∨ c = minusByte then rest else c :: rest) = .bad kind) :
    ∃ v, ParseInt (c :: rest) = (v, some (.numError (c :: rest) kind)) := by
  cases kind with
  | errSyntax => exact ⟨0, by simp only [ParseInt, h]⟩
  | errRange =>
    simp only [ParseInt, h]
    split
    · exact ⟨_, rfl⟩
    · exact ⟨_, rfl⟩

/-- `ParseInt` reports an error on a text with a non-digit byte, unless that byte is a sign
at the head of the text followed by at least one more byte. -/
theorem ParseInt_nondigit (s : Bytes) (j : Nat) (c : UInt8) (hj : s[j]? = some c)
    (hd : isDigit c = false) (hs : ¬ (j = 0 ∧ 1 < s.length ∧ isSign c)) :
    ∃ v kind, ParseInt s = (v, some (.numError s kind)) := by
  cases s with
  | nil => simp at hj
  | cons c0 rest =>
    by_cases hsign : c0 = plusByte ∨ c0 = minusByte
    · have hb : ∃ kind, ParseUint rest = .bad kind := by
        cases j with
        | zero =>
          simp only [List.getElem?_cons_zero, Option.some.injEq] at hj
          have hr : rest = [] := by
            cases rest with
            | nil => rfl
            | cons y ys =>
              exfalso
              apply hs
              refine ⟨rfl, by simp, ?_⟩
              rw [← hj]; exact hsign
          rw [hr]
          exact ⟨_, rfl⟩
        | succ j' =>
          rw [List.getElem?_cons_succ] at hj
          exact ParseUint_nondigit rest c (List.getElem?_mem hj) hd
      obtain ⟨kind, hk⟩ := hb
      obtain ⟨v, hv⟩ := ParseInt_of_bad c0 rest kind (by rw [if_pos hsign]; exact hk)
      exact ⟨v, kind, hv⟩
    · obtain ⟨kind, hk⟩ := ParseUint_nondigit (c0 :: rest) c (List.getElem?_mem hj) hd
      obtain ⟨v, hv⟩ := ParseInt_of_bad c0 rest kind (by rw [if_neg hsign]; exact hk)
      exact ⟨v, kind, hv⟩

/-- Counterexample to C6 as stated: `"-123456789"` normalises to a text with the non-digit
`'-'` and decodes with success; `"1609459200-1"` normalises to a text with a `'-'` and gets
the digit-count error, not a `ParseInt` error. -/
theorem nondigit_parse_error_counterexample :
    normalize (ascii "-123456789") = .ok (ascii "-123456789") ∧
    isDigit minusByte = false ∧ minusByte ∈ ascii "-123456789" ∧
    UnmarshalJSON ⟨0, 0⟩ (ascii "-123456789") = .ok (⟨-123456789, 0⟩, none) ∧
    normalize (ascii "1609459200-1") = .ok (ascii "1609459200-1") ∧
    minusByte ∈ ascii "1609459200-1" ∧
    UnmarshalJSON ⟨0, 0⟩ (ascii "1609459200-1") = .ok (⟨0, 0⟩, some errUnexpectedDigits) := by
  refine ⟨?_, ?_, ?_, ?_, ?_, ?_, ?_⟩ <;> decide

/-- C6, amended: when the normalised text has a non-digit byte that is not a sign at the
head of a field (index 0, or index 10 with at least one byte after it), the call returns
the `ParseInt` error of the field it fails on, and leaves the target as it was. -/
theorem unmarshal_nondigit_parse_error (e : Time) (data ts : Bytes) (i : Nat) (c : UInt8)
    (hn : normalize data = .ok ts) (hi : ts[i]? = some c) (hd : isDigit c = false)
    (hs : ¬ ((i = 0 ∨ (i = 10 ∧ 11 < ts.length)) ∧ isSign c)) :
    ∃ num kind, UnmarshalJSON e data = .ok (e, some (.numError num kind)) := by
  have hlen := normalize_length data ts hn
  have hil : i < ts.length := (List.getElem?_eq_some.mp hi).1
  rw [UnmarshalJSON_of_normalize e data ts hn]
  by_cases h10 : i < 10
  · have hj : (ts.take 10)[i]? = some c := by rw [List.getElem?_take_of_lt h10]; exact hi
    obtain ⟨v, kind, hv⟩ := ParseInt_nondigit (ts.take 10) i c hj hd
      (fun h => hs ⟨Or.inl h.1, h.2.2⟩)
    exact ⟨_, kind, decodeFields_secErr e ts hlen v _ hv⟩
  · rcases hsec : ParseInt (ts.take 10) with ⟨sec, _ | err⟩
    · have hj : (ts.drop 10)[i - 10]? = some c := by
        rw [List.getElem?_drop, show 10 + (i - 10) = i by omega]; exact hi
      obtain ⟨v, kind, hv⟩ := ParseInt_nondigit (ts.drop 10) (i - 10) c hj hd (by
        rintro ⟨h1, h2, h3⟩
        rw [List.length_drop] at h2
        exact hs ⟨Or.inr ⟨by omega, by omega⟩, h3⟩)
      exact ⟨_, kind, decodeFields_nanoErr e ts (by omega) sec v _ hsec hv⟩
    · obtain ⟨kind, hk⟩ := ParseInt_err _ _ _ hsec
      exact ⟨_, kind, by rw [decodeFields_secErr e ts hlen sec err hsec, hk]⟩

/-- Witness for C6: `"16a9459200"` returns the `ParseInt` error on its seconds field. -/
theorem unmarshal_nondigit_parse_error_witness :
    ∃ num kind, UnmarshalJSON ⟨0, 0⟩ (ascii "16a9459200") =
      .ok (⟨0, 0⟩, some (.numError num kind)) :=
  unmarshal_nondigit_parse_error ⟨0, 0⟩ (ascii "16a9459200") (ascii "16a9459200") 2 97
    (by decide) (by decide) (by decide) (by decide)

/-! ## The digit-count error -/

/-- Counterexample to C5 as stated: the 30-digit input normalises to itself, an all-digit
text of a length other than 10, 13, 16 and 19, and the call returns the range error of
`ParseInt` on the trailing field, not the digit-count error. -/
theorem digit_count_error_counterexample :
    normalize (ascii "160945920099999999999999999999") =
      .ok (ascii "160945920099999999999999999999") ∧
    allDigits (ascii "160945920099999999999999999999") ∧
    (ascii "160945920099999999999999999999").length = 30 ∧
    UnmarshalJSON ⟨0, 0⟩ (ascii "160945920099999999999999999999") =
      .ok (⟨0, 0⟩, some (.numError (ascii "99999999999999999999") .errRange)) ∧
    UnmarshalJSON ⟨0, 0⟩ (ascii "160945920099999999999999999999") ≠
      .ok (⟨0, 0⟩, some errUnexpectedDigits) := by
  refine ⟨?_, ?_, ?_, ?_, ?_⟩ <;> decide

/-- C5, amended: when the normalised text is all digits, its length is not 10, 13, 16 or
19, and the value of its trailing field (the bytes after the tenth) fits a signed 64-bit
integer, the call returns exactly the error "unexpected number of digits in timestamp"
and leaves the target as it was. -/
theorem unmarshal_digit_count_error (e : Time) (data ts : Bytes)
    (hn : normalize data = .ok ts) (hs : allDigits ts)
    (hl : ¬ (ts.length = 10 ∨ ts.length = 13 ∨ ts.length = 16 ∨ ts.length = 19))
    (hv : decVal (ts.drop 10) < 9223372036854775808) :
    UnmarshalJSON e data = .ok (e, some (Error.new "unexpected number of digits in timestamp")) := by
  have hlen := normalize_length data ts hn
  have hsec := ParseInt_take_ten ts hs hlen
  have hne : ts.drop 10 ≠ [] := by
    intro h
    have := congrArg List.length h
    rw [List.length_drop] at this
    simp at this
    omega
  have hnano := ParseInt_digits (ts.drop 10) hne (allDigits_drop hs 10) hv
  rw [UnmarshalJSON_of_normalize e data ts hn,
    decodeFields_long e ts (by omega) _ _ hsec hnano]
  unfold inferUnit
  split <;> first | omega | rfl

/-- Witness for C5: the 12-digit text `"160945920012"`. -/
theorem unmarshal_digit_count_error_witness :
    UnmarshalJSON ⟨0, 0⟩ (ascii "160945920012") =
      .ok (⟨0, 0⟩, some (Error.new "unexpected number of digits in timestamp")) :=
  unmarshal_digit_count_error ⟨0, 0⟩ (ascii "160945920012") (ascii "160945920012")
    (by decide) (by decide) (by decide) (by decide)

/-! ## Encoding -/

theorem decimalNat_of_lt_ten (u : Nat) (h : u < 10) : decimalNat u = [digitByte u] := by
  unfold decimalNat
  by_cases h0 : u = 0
  · rw [if_pos h0, h0]; rfl
  · rw [if_neg h0, Nat.digits_of_lt 10 u h0 h]; rfl

theorem decimalNat_of_ten_le (u : Nat) (h : 10 ≤ u) :
    decimalNat u = decimalNat (u / 10) ++ [digitByte (u % 10)] := by
  have h1 : u ≠ 0 := by omega
  have h2 : u / 10 ≠ 0 := by omega
  unfold decimalNat
  rw [if_neg h1, if_neg h2, Nat.digits_def' (by decide) (by omega)]
  simp

theorem formatBits_eq (fuel : Nat) : ∀ (u : Nat) (acc : Bytes), u < 10 ^ (fuel + 1) →
    formatBits fuel u acc = decimalNat u ++ acc := by
  induction fuel with
  | zero =>
    intro u acc h
    have h10 : u < 10 := by simpa using h
    rw [decimalNat_of_lt_ten u h10]
    simp [formatBits, digitByte, Nat.mod_eq_of_lt h10]
  | succ k ih =>
    intro u acc h
    by_cases hu : u ≥ 10
    · have hq : u / 10 < 10 ^ (k + 1) := by
        rw [pow_succ] at h
        omega
      simp only [formatBits, hu, if_true]
      rw [ih _ _ hq, decimalNat_of_ten_le u hu]
      simp [digitByte]
    · simp only [formatBits, hu, if_false]
      rw [decimalNat_of_lt_ten u (by omega)]
      rfl

/-- The model of `strconv.FormatInt` writes the base-10 text of every `int64`. -/
theorem FormatInt_eq (i : Int) (h1 : -9223372036854775808 ≤ i) (h2 : i ≤ 9223372036854775807) :
    FormatInt i = decimalText i := by
  have hp : (9223372036854775809 : Nat) ≤ 10 ^ (20 + 1) := by norm_num
  unfold FormatInt decimalText
  by_cases hi : i < 0
  · have e : (-i).toNat = i.natAbs := by omega
    rw [if_pos hi, if_pos hi, e, formatBits_eq 20 _ [] (by omega)]
    simp
  · have e : i.toNat = i.natAbs := by omega
    rw [if_neg hi, if_neg hi, e, formatBits_eq 20 _ [] (by omega)]
    simp

theorem tdiv_million (n : Int) :
    Int.tdiv n 1000000 = if 0 ≤ n then n / 1000000 else -((-n) / 1000000) := by
  by_cases h : 0 ≤ n
  · rw [if_pos h, Int.tdiv_eq_ediv h (by decide)]
  · rw [if_neg h]
    have e : n = -(-n) := by omega
    rw [e, Int.neg_tdiv, Int.tdiv_eq_ediv (by omega) (by decide)]
    simp

theorem UnixNano_of_fits (x : Time) (h : fitsInt64 x.nanos) : UnixNano x = x.nanos := by
  unfold fitsInt64 minInt64 maxInt64 at h
  exact wrap64_of_fits h.1 h.2

/-- Encoding of an instant whose nanosecond count fits an `int64`. -/
theorem MarshalJSON_eq (x : Time) (h : fitsInt64 x.nanos) :
    MarshalJSON x = (decimalText (Int.tdiv x.nanos 1000000), none) := by
  have hf := h
  unfold fitsInt64 minInt64 maxInt64 at hf
  have ht := tdiv_million x.nanos
  unfold MarshalJSON
  rw [UnixNano_of_fits x h]
  simp only
  rw [FormatInt_eq]
  · rw [ht]; split <;> omega
  · rw [ht]; split <;> omega

/-- C3: for an instant whose nanosecond count `n` since the epoch fits a signed 64-bit
integer, `MarshalJSON` returns a nil error and the base-10 text of `n / 1000000` truncated
toward zero; the epoch and the instants 1 to 999999 nanoseconds before it encode to
`"0"`. -/
theorem marshal_truncated_millis (x : Time) (h : fitsInt64 x.nanos) :
    MarshalJSON x = (decimalText (Int.tdiv x.nanos 1000000), none) ∧
      (x.nanos = 0 → MarshalJSON x = (ascii "0", none)) ∧
      (-999999 ≤ x.nanos ∧ x.nanos ≤ -1 → MarshalJSON x = (ascii "0", none)) := by
  have hm := MarshalJSON_eq x h
  have ht := tdiv_million x.nanos
  refine ⟨hm, ?_, ?_⟩
  · intro h0
    rw [hm, h0]; rfl
  · rintro ⟨ha, hb⟩
    have hz : Int.tdiv x.nanos 1000000 = 0 := by
      rw [ht, if_neg (by omega)]; omega
    rw [hm, hz]; rfl

/-- Witness for C3: the instant 1 nanosecond before the epoch encodes to `"0"`, where
rounding toward negative infinity would give `"-1"`. -/
theorem marshal_truncated_millis_witness :
    MarshalJSON ⟨-1, 999999999⟩ = (ascii "0", none) :=
  (marshal_truncated_millis ⟨-1, 999999999⟩ (by decide)).2.2 (by decide)

/-! ## Round trip -/

theorem digitByte_toNat (d : Nat) (h : d < 10) : (digitByte d).toNat = 48 + d := by
  unfold digitByte
  exact UInt8.toNat_ofNat_of_lt (by unfold UInt8.size; omega)

theorem isDigit_digitByte (d : Nat) (h : d < 10) : isDigit (digitByte d) = true := by
  rw [isDigit_iff, digitByte_toNat d h]; omega

theorem allDigits_map_digitByte (l : List Nat) (h : ∀ d ∈ l, d < 10) :
    allDigits (l.map digitByte) := by
  intro c hc
  obtain ⟨d, hd, rfl⟩ := List.mem_map.mp hc
  exact isDigit_digitByte d (h d hd)

theorem decVal_reverse_map_digitByte (l : List Nat) (h : ∀ d ∈ l, d < 10) :
    decVal (l.reverse.map digitByte) = Nat.ofDigits 10 l := by
  induction l with
  | nil => rfl
  | cons d l ih =>
    have hd : d < 10 := h d (by simp)
    have hl : ∀ x ∈ l, x < 10 := fun x hx => h x (List.mem_cons_of_mem _ hx)
    rw [List.reverse_cons, List.map_append, decVal_append, ih hl, Nat.ofDigits_cons]
    have e : decVal (List.map digitByte [d]) = d := by
      simp [decVal, decValFrom, digitByte_toNat d hd]
    rw [e]
    simp only [List.map_cons, List.map_nil, List.length_singleton, pow_one]
    ring

theorem allDigits_decimalNat (n : Nat) : allDigits (decimalNat n) := by
  unfold decimalNat
  split
  · intro c hc
    rw [List.mem_singleton] at hc
    rw [hc]; rfl
  · exact allDigits_map_digitByte _ (fun d hd =>
      Nat.digits_lt_base (by decide) (List.mem_reverse.mp hd))

theorem decVal_decimalNat (n : Nat) : decVal (decimalNat n) = n := by
  unfold decimalNat
  split
  · rename_i h0
    rw [h0]; rfl
  · rw [decVal_reverse_map_digitByte _ (fun d hd => Nat.digits_lt_base (by decide) hd),
      Nat.ofDigits_digits]

/-- The text of a number of thirteen decimal digits has thirteen bytes. -/
theorem length_decimalNat_thirteen (n : Nat) (h1 : 1000000000000 ≤ n)
    (h2 : n < 10000000000000) : (decimalNat n).length = 13 := by
  have hne : n ≠ 0 := by omega
  unfold decimalNat
  rw [if_neg hne, List.length_map, List.length_reverse]
  have hmul : 10 ^ (Nat.digits 10 n).length ≤ 10 * n :=
    Nat.base_pow_length_digits_le 10 n (by decide) hne
  have hup : (Nat.digits 10 n).length ≤ 13 := by
    by_contra hc
    have : 10 ^ 14 ≤ 10 ^ (Nat.digits 10 n).length :=
      Nat.pow_le_pow_right (by decide) (by omega)
    have e : (10 : Nat) ^ 14 = 100000000000000 := by norm_num
    omega
  have hlt : n < 10 ^ (Nat.digits 10 n).length := Nat.lt_base_pow_length_digits (by decide)
  have hlo : 12 < (Nat.digits 10 n).length := by
    by_contra hc
    have : 10 ^ (Nat.digits 10 n).length ≤ 10 ^ 12 :=
      Nat.pow_le_pow_right (by decide) (by omega)
    have e : (10 : Nat) ^ 12 = 1000000000000 := by norm_num
    omega
  omega

/-- Counterexample to C2 as stated: the instant 5 ms after the epoch is a whole number of
milliseconds, encodes to `"5"`, and that text decodes to 5 seconds after the epoch; the
instant 10^11 ms after the epoch encodes to 12 digits, which the decoder rejects. -/
theorem roundtrip_counterexample :
    Time.valid ⟨0, 5000000⟩ ∧ Time.nanos ⟨0, 5000000⟩ % 1000000 = 0 ∧
    MarshalJSON ⟨0, 5000000⟩ = (ascii "5", none) ∧
    UnmarshalJSON ⟨0, 0⟩ (MarshalJSON ⟨0, 5000000⟩).1 = .ok (⟨5, 0⟩, none) ∧
    UnmarshalJSON ⟨0, 0⟩ (MarshalJSON ⟨0, 5000000⟩).1 ≠ .ok (⟨0, 5000000⟩, none) ∧
    Time.valid ⟨100000000, 0⟩ ∧ Time.nanos ⟨100000000, 0⟩ % 1000000 = 0 ∧
    UnmarshalJSON ⟨0, 0⟩ (MarshalJSON ⟨100000000, 0⟩).1 =
      .ok (⟨0, 0⟩, some errUnexpectedDigits) := by
  refine ⟨?_, ?_, ?_, ?_, ?_, ?_, ?_, ?_⟩ <;> decide

/-- C2, amended: for an instant `x` that is a whole number `m` of milliseconds from the
epoch, with a nanosecond count that fits a signed 64-bit integer, and with `m = 0` or
`m >= 10^12` (thirteen digits), decoding the bytes produced by `MarshalJSON x` returns no
error and yields `x`. -/
theorem roundtrip_thirteen_digits (e x : Time) (hv : x.valid)
    (hms : x.nanos % 1000000 = 0) (hf : fitsInt64 x.nanos)
    (hr : x.nanos = 0 ∨ 1000000000000000000 ≤ x.nanos) :
    UnmarshalJSON e (MarshalJSON x).1 = .ok (x, none) := by
  obtain ⟨sec, nsec⟩ := x
  have hf2 := hf
  unfold fitsInt64 minInt64 maxInt64 at hf2
  unfold Time.valid at hv
  simp only [Time.nanos] at hms hr hf2 hv
  have ht := tdiv_million (Time.nanos ⟨sec, nsec⟩)
  simp only [Time.nanos] at ht
  rw [MarshalJSON_eq _ hf]
  simp only [Time.nanos]
  rcases hr with h0 | hbig
  · have hz : Int.tdiv (sec * 1000000000 + nsec) 1000000 = 0 := by
      rw [ht, if_pos (by omega)]; omega
    rw [hz]
    have hdec : decimalText 0 = ascii "0" := rfl
    rw [hdec, (UnmarshalJSON_short e (ascii "0") (by decide) (by decide)).1]
    have e1 : sec = 0 := by omega
    have e2 : nsec = 0 := by omega
    rw [e1, e2]; rfl
  · have hq : Int.tdiv (sec * 1000000000 + nsec) 1000000 =
        (sec * 1000000000 + nsec) / 1000000 := by
      rw [ht, if_pos (by omega)]
    rw [hq]
    obtain ⟨m, hm⟩ : ∃ m : Nat, (sec * 1000000000 + nsec) / 1000000 = (m : Int) :=
      ⟨((sec * 1000000000 + nsec) / 1000000).toNat, by omega⟩
    rw [hm]
    have hdt : decimalText (m : Int) = decimalNat m := by
      unfold decimalText
      rw [if_neg (by omega)]; simp
    rw [hdt]
    have hlen := length_decimalNat_thirteen m (by omega) (by omega)
    have hall := allDigits_decimalNat m
    have hval := decVal_decimalNat m
    rw [UnmarshalJSON_digits e _ hall (Or.inr (Or.inl hlen)), hlen]
    have hsplit : decVal ((decimalNat m).take 10) * 10 ^ 3 + decVal ((decimalNat m).drop 10)
        = m := by
      have := decVal_append ((decimalNat m).take 10) ((decimalNat m).drop 10)
      rw [List.take_append_drop, hval, List.length_drop, hlen] at this
      exact this.symm
    have hlow := decVal_lt _ (allDigits_drop hall 10)
    rw [List.length_drop, hlen] at hlow
    have hlow3 : decVal ((decimalNat m).drop 10) < 1000 := by simpa using hlow
    have hsplit2 : decVal ((decimalNat m).take 10) * 1000 + decVal ((decimalNat m).drop 10)
        = m := by simpa using hsplit
    have e1 : sec = (decVal ((decimalNat m).take 10) : Int) := by omega
    have e2 : nsec = ((decVal ((decimalNat m).drop 10) * 10 ^ (19 - 13) : Nat) : Int) := by
      have : (10 : Nat) ^ (19 - 13) = 1000000 := by norm_num
      rw [this]; omega
    rw [← e1, ← e2]

/-- Witness for C2: 2021-01-01T00:00:00.123Z, and the epoch itself. -/
theorem roundtrip_thirteen_digits_witness :
    UnmarshalJSON ⟨0, 0⟩ (MarshalJSON ⟨1609459200, 123000000⟩).1 =
        .ok (⟨1609459200, 123000000⟩, none) ∧
      UnmarshalJSON ⟨7, 7⟩ (MarshalJSON ⟨0, 0⟩).1 = .ok (⟨0, 0⟩, none) :=
  ⟨roundtrip_thirteen_digits ⟨0, 0⟩ ⟨1609459200, 123000000⟩ (by decide) (by decide)
      (by decide) (by decide),
   roundtrip_thirteen_digits ⟨7, 7⟩ ⟨0, 0⟩ (by decide) (by decide) (by decide) (by decide)⟩

/-! ## Atomicity of decoding -/

theorem UnmarshalJSON_ok_normalize (e : Time) (data : Bytes) (p : Time × Option Error)
    (h : UnmarshalJSON e data = .ok p) : ∃ ts, normalize data = .ok ts := by
  rcases hn : normalize data with f | ts
  · unfold UnmarshalJSON at h
    rw [hn] at h
    cases h
  · exact ⟨ts, rfl⟩

theorem UnmarshalJSON_ok_returned (e : Time) (data : Bytes) (p : Time × Option Error)
    (h : UnmarshalJSON e data = .ok p) : returned e (UnmarshalJSON e data) := by
  obtain ⟨ts, hts⟩ := UnmarshalJSON_ok_normalize e data p h
  rw [UnmarshalJSON_of_normalize e data ts hts]
  exact decodeFields_returned e ts (normalize_length data ts hts)

/-- A successful decoding of the fields does not depend on the previous target. -/
theorem decodeFields_success_indep (e e2 : Time) (ts : Bytes) (h : 10 ≤ ts.length) (t : Time)
    (hok : decodeFields e ts = .ok (t, none)) : decodeFields e2 ts = .ok (t, none) := by
  rcases hsec : ParseInt (ts.take 10) with ⟨sec, _ | err⟩
  · by_cases h10 : ts.length = 10
    · rw [decodeFields_ten e ts h10 sec hsec] at hok
      rw [decodeFields_ten e2 ts h10 sec hsec]
      rw [h10] at hok ⊢
      exact hok
    · have hlt : 10 < ts.length := by omega
      rcases hnano : ParseInt (ts.drop 10) with ⟨nano, _ | err⟩
      · rw [decodeFields_long e ts hlt sec nano hsec hnano] at hok
        rw [decodeFields_long e2 ts hlt sec nano hsec hnano]
        unfold inferUnit at hok ⊢
        split at hok
        · exact hok
        · exact hok
        · exact hok
        · exact hok
        · injection hok with hok
          injection hok with _ h2
          cases h2
      · rw [decodeFields_nanoErr e ts hlt sec nano err hsec hnano] at hok
        injection hok with hok
        injection hok with _ h2
        cases h2
  · rw [decodeFields_secErr e ts h sec err hsec] at hok
    injection hok with hok
    injection hok with _ h2
    cases h2

/-- C11: when `UnmarshalJSON` returns an error the target is exactly what it was before the
call; the target changes only on success, and the instant written then is computed from
the input alone, whatever the target held before. -/
theorem unmarshal_atomic (e : Time) (data : Bytes) (t : Time) (r : Option Error)
    (h : UnmarshalJSON e data = .ok (t, r)) :
    (r ≠ none → t = e) ∧ (r = none → ∀ e2, UnmarshalJSON e2 data = .ok (t, none)) := by
  refine ⟨?_, ?_⟩
  · intro hr
    rcases UnmarshalJSON_ok_returned e data _ h with ⟨t2, h2⟩ | ⟨num, kind, h2⟩ | h2
    · rw [h2] at h
      injection h with h
      injection h with _ hb
      exact absurd hb.symm hr
    · rw [h2] at h
      injection h with h
      injection h with ha _
      exact ha.symm
    · rw [h2] at h
      injection h with h
      injection h with ha _
      exact ha.symm
  · intro hr e2
    rw [hr] at h
    obtain ⟨ts, hts⟩ := UnmarshalJSON_ok_normalize e data _ h
    rw [UnmarshalJSON_of_normalize e data ts hts] at h
    rw [UnmarshalJSON_of_normalize e2 data ts hts]
    exact decodeFields_success_indep e e2 ts (normalize_length data ts hts) t h

/-- Witness for C11: the rejected text `"160945920012"` leaves the target `⟨7, 7⟩` alone. -/
theorem unmarshal_atomic_witness :
    UnmarshalJSON ⟨7, 7⟩ (ascii "160945920012") = .ok (⟨7, 7⟩, some errUnexpectedDigits) ∧
      ((some errUnexpectedDigits ≠ none → (⟨7, 7⟩ : Time) = ⟨7, 7⟩) ∧
        (some errUnexpectedDigits = none →
          ∀ e2, UnmarshalJSON e2 (ascii "160945920012") = .ok (⟨7, 7⟩, none))) :=
  ⟨by decide, unmarshal_atomic ⟨7, 7⟩ (ascii "160945920012") ⟨7, 7⟩ (some errUnexpectedDigits)
    (by decide)⟩

/-! ## Unit independence and the range of the sub-second field -/

/-- Appending `k` zeros to an all-digit text of an accepted length, up to another accepted
length, does not change the decoded instant. -/
theorem UnmarshalJSON_append_zeros (e : Time) (s : Bytes) (k : Nat) (hs : allDigits s)
    (hl : s.length = 10 ∨ s.length = 13 ∨ s.length = 16 ∨ s.length = 19)
    (hk : s.length + k = 10 ∨ s.length + k = 13 ∨ s.length + k = 16 ∨ s.length + k = 19) :
    UnmarshalJSON e (s ++ zeros k) = UnmarshalJSON e s := by
  have hall : allDigits (s ++ zeros k) := allDigits_append.mpr ⟨hs, allDigits_zeros k⟩
  have hlen : (s ++ zeros k).length = s.length + k := by
    rw [List.length_append, length_zeros]
  rw [UnmarshalJSON_digits e s hs hl, UnmarshalJSON_digits e _ hall (by rw [hlen]; exact hk)]
  have ht : (s ++ zeros k).take 10 = s.take 10 := List.take_append_of_le_length (by omega)
  have hd : (s ++ zeros k).drop 10 = s.drop 10 ++ zeros k :=
    List.drop_append_of_le_length (by omega)
  have hpow : 10 ^ k * 10 ^ (19 - (s.length + k)) = 10 ^ (19 - s.length) := by
    rw [← pow_add]
    congr 1
    omega
  rw [ht, hd, hlen, decVal_append, decVal_zeros, length_zeros, Nat.add_zero, Nat.mul_assoc,
    hpow]

/-- C13: for an all-digit text `s` of 10, 13 or 16 characters, `s ++ "000"` decodes with
success to the same instant as `s`; so a 10-digit `s`, `s ++ "000"`, `s ++ "000000"` and
`s ++ "000000000"` all decode to one instant. -/
theorem unmarshal_unit_independent (e : Time) (s : Bytes) (hs : allDigits s)
    (hl : s.length = 10 ∨ s.length = 13 ∨ s.length = 16) :
    (∃ t, UnmarshalJSON e s = .ok (t, none) ∧
        UnmarshalJSON e (s ++ ascii "000") = .ok (t, none)) ∧
      (s.length = 10 →
        UnmarshalJSON e (s ++ ascii "000000") = UnmarshalJSON e s ∧
        UnmarshalJSON e (s ++ ascii "000000000") = UnmarshalJSON e s) := by
  have e3 : ascii "000" = zeros 3 := rfl
  have e6 : ascii "000000" = zeros 6 := rfl
  have e9 : ascii "000000000" = zeros 9 := rfl
  have h3 := UnmarshalJSON_append_zeros e s 3 hs (by omega) (by omega)
  refine ⟨⟨_, UnmarshalJSON_digits e s hs (by omega), ?_⟩, ?_⟩
  · rw [e3, h3]
    exact UnmarshalJSON_digits e s hs (by omega)
  · intro h10
    rw [e6, e9]
    exact ⟨UnmarshalJSON_append_zeros e s 6 hs (by omega) (by omega),
      UnmarshalJSON_append_zeros e s 9 hs (by omega) (by omega)⟩

/-- Witness for C13: `"1609459200"` and `"1609459200000"` decode to the same instant. -/
theorem unmarshal_unit_independent_witness :
    ∃ t, UnmarshalJSON ⟨0, 0⟩ (ascii "1609459200") = .ok (t, none) ∧
      UnmarshalJSON ⟨0, 0⟩ (ascii "1609459200000") = .ok (t, none) :=
  (unmarshal_unit_independent ⟨0, 0⟩ (ascii "1609459200") (by decide) (by decide)).1

theorem nanoOffset_thirteen (x : Int) : nanoOffset 13 x = wrap64 (x * 1000000) := by
  unfold nanoOffset
  rw [if_pos rfl]

theorem nanoOffset_sixteen (x : Int) : nanoOffset 16 x = wrap64 (x * 1000) := by
  unfold nanoOffset
  rw [if_neg (by decide), if_pos rfl]

theorem nanoOffset_nineteen (x : Int) : nanoOffset 19 x = x := by
  unfold nanoOffset
  rw [if_neg (by decide), if_neg (by decide), if_pos rfl]

theorem nanoOffset_ten (x : Int) : nanoOffset 10 x = 0 := by
  unfold nanoOffset
  rw [if_neg (by decide), if_neg (by decide), if_neg (by decide)]

/-- The offset of an all-digit text of an accepted length is within one second. -/
theorem nanoOffset_digits (s : Bytes) (hs : allDigits s)
    (hl : s.length = 10 ∨ s.length = 13 ∨ s.length = 16 ∨ s.length = 19) :
    nanoOffset s.length (decVal (s.drop 10) : Int) =
        ((decVal (s.drop 10) * 10 ^ (19 - s.length) : Nat) : Int) ∧
      decVal (s.drop 10) * 10 ^ (19 - s.length) < 1000000000 := by
  have hd := decVal_lt _ (allDigits_drop hs 10)
  rw [List.length_drop] at hd
  have p3 : (10 : Nat) ^ 3 = 1000 := by norm_num
  have p6 : (10 : Nat) ^ 6 = 1000000 := by norm_num
  have p9 : (10 : Nat) ^ 9 = 1000000000 := by norm_num
  rcases hl with h | h | h | h
  · have hnil : s.drop 10 = [] := List.drop_eq_nil_of_le (by omega)
    have e0 : decVal ([] : Bytes) = 0 := rfl
    rw [h, hnil, e0, nanoOffset_ten, Nat.zero_mul]
    exact ⟨rfl, by omega⟩
  · have e1 : 13 - 10 = 3 := rfl
    have e2 : 19 - 13 = 6 := rfl
    rw [h, e1, p3] at hd
    rw [h, nanoOffset_thirteen, e2, p6, wrap64_of_fits (by omega) (by omega)]
    exact ⟨by push_cast; rfl, by omega⟩
  · have e1 : 16 - 10 = 6 := rfl
    have e2 : 19 - 16 = 3 := rfl
    rw [h, e1, p6] at hd
    rw [h, nanoOffset_sixteen, e2, p3, wrap64_of_fits (by omega) (by omega)]
    exact ⟨by push_cast; rfl, by omega⟩
  · have e1 : 19 - 10 = 9 := rfl
    have e2 : 19 - 19 = 0 := rfl
    rw [h, e1, p9] at hd
    rw [h, nanoOffset_nineteen, e2, pow_zero, Nat.mul_one]
    exact ⟨rfl, hd⟩

/-- C16: for an all-digit text of 10, 13, 16 or 19 characters the nanosecond offset handed
to `time.Unix` (0, the trailing field times 1000000, times 1000, or the trailing field)
lies in `[0, 1000000000)`, and the decoded instant `t` satisfies `sec <= t < sec + 1s`
with `sec` the value of the first ten characters. -/
theorem unmarshal_offset_within_second (e : Time) (s : Bytes) (hs : allDigits s)
    (hl : s.length = 10 ∨ s.length = 13 ∨ s.length = 16 ∨ s.length = 19) :
    0 ≤ nanoOffset s.length (decVal (s.drop 10) : Int) ∧
      nanoOffset s.length (decVal (s.drop 10) : Int) < 1000000000 ∧
      UnmarshalJSON e s = .ok (timeUnix (decVal (s.take 10) : Int)
        (nanoOffset s.length (decVal (s.drop 10) : Int)), none) ∧
      ∃ t, UnmarshalJSON e s = .ok (t, none) ∧
        (decVal (s.take 10) : Int) * 1000000000 ≤ t.nanos ∧
        t.nanos < ((decVal (s.take 10) : Int) + 1) * 1000000000 := by
  obtain ⟨hoff, hlt⟩ := nanoOffset_digits s hs hl
  have hu := UnmarshalJSON_digits e s hs hl
  rw [hoff]
  refine ⟨by omega, by omega, ?_, _, hu, ?_, ?_⟩
  · rw [timeUnix_of_inRange _ _ (by omega) (by omega)]
    exact hu
  · simp only [Time.nanos]; omega
  · simp only [Time.nanos]; omega

/-- Witness for C16: `"1609459200999"` carries the offset 999000000 ns. -/
theorem unmarshal_offset_within_second_witness :
    nanoOffset 13 999 = 999000000 ∧
      UnmarshalJSON ⟨0, 0⟩ (ascii "1609459200999") = .ok (⟨1609459200, 999000000⟩, none) :=
  ⟨by decide,
   (unmarshal_offset_within_second ⟨0, 0⟩ (ascii "1609459200999") (by decide)
      (by decide)).2.2.1⟩

/-! ## The shape of the encoded text -/

theorem wrap64_range (x : Int) :
    -9223372036854775808 ≤ wrap64 x ∧ wrap64 x ≤ 9223372036854775807 := by
  unfold wrap64; omega

/-- Encoding of any instant, in terms of the count `UnixNano` returns. -/
theorem MarshalJSON_eq_wrapped (x : Time) :
    MarshalJSON x = (decimalText (Int.tdiv (UnixNano x) 1000000), none) := by
  have hr : -9223372036854775808 ≤ UnixNano x ∧ UnixNano x ≤ 9223372036854775807 :=
    wrap64_range _
  have ht := tdiv_million (UnixNano x)
  unfold MarshalJSON
  simp only
  rw [FormatInt_eq]
  · rw [ht]; split <;> omega
  · rw [ht]; split <;> omega

theorem decimalNat_ne_nil (n : Nat) : decimalNat n ≠ [] := by
  unfold decimalNat
  split
  · simp
  · rename_i h
    intro hnil
    have h2 : Nat.digits 10 n = [] := by simpa using hnil
    exact h (Nat.digits_eq_nil_iff_eq_zero.mp h2)

theorem not_allDigits_minus (s : Bytes) : ¬ allDigits (minusByte :: s) := by
  intro h
  have := h minusByte (List.mem_cons_self _ _)
  exact absurd this (by decide)

/-- Counterexample to C12 as stated: the instant one second before the epoch encodes to
`"-1000"`, which starts with a sign. -/
theorem marshal_digits_counterexample :
    MarshalJSON ⟨-1, 0⟩ = (ascii "-1000", none) ∧ Time.valid ⟨-1, 0⟩ ∧
      minusByte ∈ (MarshalJSON ⟨-1, 0⟩).1 ∧ ¬ allDigits (MarshalJSON ⟨-1, 0⟩).1 := by
  refine ⟨?_, ?_, ?_, ?_⟩ <;> decide

/-- C12, amended: the bytes returned by `MarshalJSON` are never empty, and they consist
only of ASCII digits exactly when the nanosecond count `UnixNano` returns is greater than
-1000000 (the instant is not 1 ms or more before the epoch); otherwise they begin with
`'-'`. -/
theorem marshal_digits_iff (x : Time) :
    (MarshalJSON x).1 ≠ [] ∧
      (allDigits (MarshalJSON x).1 ↔ -1000000 < UnixNano x) ∧
      (¬ (-1000000 < UnixNano x) → (MarshalJSON x).1.head? = some minusByte) := by
  have ht := tdiv_million (UnixNano x)
  rw [MarshalJSON_eq_wrapped x]
  simp only
  by_cases hneg : Int.tdiv (UnixNano x) 1000000 < 0
  · have hlow : ¬ (-1000000 < UnixNano x) := by
      intro hc
      rw [ht] at hneg
      split at hneg <;> omega
    unfold decimalText
    rw [if_pos hneg]
    refine ⟨by simp, ⟨fun h => absurd h (not_allDigits_minus _), fun h => absurd h hlow⟩, ?_⟩
    intro _; rfl
  · have hhigh : -1000000 < UnixNano x := by
      by_contra hc
      apply hneg
      rw [ht, if_neg (by omega)]
      omega
    unfold decimalText
    rw [if_neg hneg]
    exact ⟨decimalNat_ne_nil _, ⟨fun _ => hhigh, fun _ => allDigits_decimalNat _⟩,
      fun h => absurd hhigh h⟩

/-! ## Round trips through thirteen digits -/

/-- Decoding of the base-10 text of a number of thirteen digits. -/
theorem UnmarshalJSON_decimalNat_thirteen (e : Time) (m : Nat) (h1 : 1000000000000 ≤ m)
    (h2 : m < 10000000000000) :
    UnmarshalJSON e (decimalNat m) =
      .ok (⟨((m / 1000 : Nat) : Int), ((m % 1000 * 1000000 : Nat) : Int)⟩, none) := by
  have hlen := length_decimalNat_thirteen m h1 h2
  have hall := allDigits_decimalNat m
  have hval := decVal_decimalNat m
  rw [UnmarshalJSON_digits e _ hall (Or.inr (Or.inl hlen)), hlen]
  have hsplit := decVal_append ((decimalNat m).take 10) ((decimalNat m).drop 10)
  rw [List.take_append_drop, hval, List.length_drop, hlen] at hsplit
  have hlow := decVal_lt _ (allDigits_drop hall 10)
  rw [List.length_drop, hlen] at hlow
  have hlow3 : decVal ((decimalNat m).drop 10) < 1000 := by simpa using hlow
  have hsplit2 : m = decVal ((decimalNat m).take 10) * 1000 + decVal ((decimalNat m).drop 10) := by
    simpa using hsplit
  have e1 : decVal ((decimalNat m).take 10) = m / 1000 := by omega
  have e2 : decVal ((decimalNat m).drop 10) = m % 1000 := by omega
  have e3 : (10 : Nat) ^ (19 - 13) = 1000000 := by norm_num
  rw [e1, e2, e3]

/-- Counterexample to C14 as stated: for 2262-04-11T23:47:16.854775808Z the whole-millisecond
count is 9223372036854, within the stated bounds, but the nanosecond count is 2^63 and
`UnixNano` wraps: the encoded text is `"-9223372036854"`, which the decoder rejects. -/
theorem restricted_roundtrip_counterexample :
    Time.valid ⟨9223372036, 854775808⟩ ∧
    Time.nanos ⟨9223372036, 854775808⟩ / 1000000 = 9223372036854 ∧
    MarshalJSON ⟨9223372036, 854775808⟩ = (ascii "-9223372036854", none) ∧
    UnmarshalJSON ⟨0, 0⟩ (MarshalJSON ⟨9223372036, 854775808⟩).1 =
      .ok (⟨0, 0⟩, some errUnexpectedDigits) := by
  refine ⟨?_, ?_, ?_, ?_⟩ <;> decide

/-- C14, amended: for an instant `x` whose whole-millisecond count `m` since the epoch is at
least 10^12 and whose nanosecond count is at most 9223372036854775807 (it fits a signed
64-bit integer), decoding the bytes of `MarshalJSON x` returns no error and yields the
instant exactly `m` milliseconds after the epoch. -/
theorem roundtrip_truncates_to_millis (e x : Time)
    (hm : 1000000000000 ≤ x.nanos / 1000000) (hf : x.nanos ≤ 9223372036854775807) :
    ∃ t, UnmarshalJSON e (MarshalJSON x).1 = .ok (t, none) ∧
      t.nanos = x.nanos / 1000000 * 1000000 ∧ t.valid := by
  have hfit : fitsInt64 x.nanos := by
    unfold fitsInt64 minInt64 maxInt64
    omega
  have ht := tdiv_million x.nanos
  rw [if_pos (by omega)] at ht
  rw [MarshalJSON_eq x hfit, ht]
  obtain ⟨m, hmn⟩ : ∃ m : Nat, x.nanos / 1000000 = (m : Int) :=
    ⟨(x.nanos / 1000000).toNat, by omega⟩
  have hdt : decimalText (m : Int) = decimalNat m := by
    unfold decimalText
    rw [if_neg (by omega)]; simp
  rw [hmn, hdt, UnmarshalJSON_decimalNat_thirteen e m (by omega) (by omega)]
  refine ⟨_, rfl, ?_, ?_⟩
  · simp only [Time.nanos]
    push_cast
    omega
  · unfold Time.valid
    simp only
    push_cast
    omega

/-- Witness for C14: 2021-01-01T00:00:00.123456789Z comes back as 00:00:00.123Z. -/
theorem roundtrip_truncates_to_millis_witness :
    ∃ t, UnmarshalJSON ⟨0, 0⟩ (MarshalJSON ⟨1609459200, 123456789⟩).1 = .ok (t, none) ∧
      t.nanos = Time.nanos ⟨1609459200, 123456789⟩ / 1000000 * 1000000 ∧ t.valid :=
  roundtrip_truncates_to_millis ⟨0, 0⟩ ⟨1609459200, 123456789⟩ (by decide) (by decide)

theorem digitByte_of_isDigit (c : UInt8) (h : isDigit c = true) :
    digitByte (c.toNat - 48) = c := by
  have hd := (isDigit_iff c).mp h
  apply UInt8.ext
  rw [digitByte_toNat _ (by omega)]
  omega

/-- The base-10 text of the value of a digit text without a leading zero is that text. -/
theorem decimalNat_decVal (s : Bytes) : allDigits s → s ≠ [] → s.head? ≠ some zeroByte →
    decimalNat (decVal s) = s := by
  induction s using List.reverseRecOn with
  | nil => intro _ h _; exact absurd rfl h
  | append_singleton t c ih =>
    intro hs _ hh
    obtain ⟨ht, hc⟩ := allDigits_append.mp hs
    have hcd : isDigit c = true := hc c (List.mem_singleton_self c)
    have hd := (isDigit_iff c).mp hcd
    have hval : decVal (t ++ [c]) = decVal t * 10 + (c.toNat - 48) := by
      rw [decVal_append]
      simp [decVal, decValFrom]
    cases t with
    | nil =>
      have hc0 : c ≠ zeroByte := by
        intro h0
        apply hh
        rw [h0]; rfl
      have hne : c.toNat ≠ 48 := by
        intro h48
        apply hc0
        apply UInt8.ext
        rw [h48]; rfl
      rw [hval]
      have e0 : decVal ([] : Bytes) = 0 := rfl
      rw [e0, Nat.zero_mul, Nat.zero_add, decimalNat_of_lt_ten _ (by omega),
        digitByte_of_isDigit c hcd]
      rfl
    | cons a t2 =>
      have hh2 : (a :: t2).head? ≠ some zeroByte := by simpa using hh
      have iht := ih ht (by simp) hh2
      have hpos : decVal (a :: t2) ≠ 0 := by
        intro h0
        rw [h0] at iht
        have : decimalNat 0 = [zeroByte] := rfl
        rw [this] at iht
        apply hh2
        rw [← iht]; rfl
      rw [hval, decimalNat_of_ten_le _ (by omega)]
      have e1 : (decVal (a :: t2) * 10 + (c.toNat - 48)) / 10 = decVal (a :: t2) := by omega
      have e2 : (decVal (a :: t2) * 10 + (c.toNat - 48)) % 10 = c.toNat - 48 := by omega
      rw [e1, e2, iht, digitByte_of_isDigit c hcd]

/-- C15: for a text `s` of thirteen ASCII digits whose first character is not `'0'` and
whose value is at most 9223372036854, `MarshalJSON` of the instant that `UnmarshalJSON`
produces from `s` returns exactly the bytes of `s`. -/
theorem marshal_unmarshal_identity (e : Time) (s : Bytes) (hs : allDigits s)
    (hl : s.length = 13) (hh : s.head? ≠ some zeroByte) (hv : decVal s ≤ 9223372036854) :
    ∃ t, UnmarshalJSON e s = .ok (t, none) ∧ MarshalJSON t = (s, none) := by
  have hne : s ≠ [] := by
    intro h; rw [h] at hl; simp at hl
  refine ⟨_, UnmarshalJSON_digits e s hs (Or.inr (Or.inl hl)), ?_⟩
  have hsplit := decVal_append (s.take 10) (s.drop 10)
  rw [List.take_append_drop, List.length_drop, hl] at hsplit
  have hsplit2 : decVal s = decVal (s.take 10) * 1000 + decVal (s.drop 10) := by
    simpa using hsplit
  have e3 : (10 : Nat) ^ (19 - 13) = 1000000 := by norm_num
  have hn : Time.nanos ⟨(decVal (s.take 10) : Int),
      ((decVal (s.drop 10) * 10 ^ (19 - s.length) : Nat) : Int)⟩ =
      (decVal s : Int) * 1000000 := by
    simp only [Time.nanos]
    rw [hl, e3]
    push_cast
    omega
  have hfit : fitsInt64 (Time.nanos ⟨(decVal (s.take 10) : Int),
      ((decVal (s.drop 10) * 10 ^ (19 - s.length) : Nat) : Int)⟩) := by
    rw [hn]
    unfold fitsInt64 minInt64 maxInt64
    omega
  rw [MarshalJSON_eq _ hfit, hn, tdiv_million, if_pos (by omega)]
  have hq : (decVal s : Int) * 1000000 / 1000000 = (decVal s : Int) := by omega
  rw [hq]
  unfold decimalText
  rw [if_neg (by omega)]
  simp only [Int.natAbs_ofNat]
  rw [decimalNat_decVal s hs hne hh]

/-- Witness for C15: `"1609459200123"` is decoded and encoded back to itself. -/
theorem marshal_unmarshal_identity_witness :
    ∃ t, UnmarshalJSON ⟨0, 0⟩ (ascii "1609459200123") = .ok (t, none) ∧
      MarshalJSON t = (ascii "1609459200123", none) :=
  marshal_unmarshal_identity ⟨0, 0⟩ (ascii "1609459200123") (by decide) (by decide)
    (by decide) (by decide)

/-! ## Inputs with several separators -/

theorem count_stringsReplaceFirst (old : UInt8) (s : Bytes) :
    List.count old (stringsReplaceFirst old s) = List.count old s - 1 := by
  induction s with
  | nil => rfl
  | cons c cs ih =>
    by_cases hc : c = old
    · simp [stringsReplaceFirst, hc]
    · have hb : (c == old) = false := by simpa using hc
      simp only [stringsReplaceFirst, hc, if_false, List.count_cons, hb, ih]
      simp

theorem count_of_split_pair (data p1 p2 : Bytes) (h : stringsSplit dot data = [p1, p2]) :
    List.count dot data = 1 := by
  obtain ⟨e1, e2, e3⟩ := stringsSplit_eq_pair dot data p1 p2 h
  rw [e1, List.count_append, List.count_append, List.count_eq_zero_of_not_mem e2,
    List.count_eq_zero_of_not_mem e3]
  rfl

/-- With two or more `'.'` the merge of lines 32-35 is skipped and one `'.'` is removed. -/
theorem normalize_many_dots (data : Bytes) (h : 2 ≤ List.count dot data) :
    normalize data = .ok (leftPad (stringsReplaceFirst dot data)) := by
  rw [normalize_eq]
  split
  · rename_i p1 p2 hsp
    have := count_of_split_pair data p1 p2 hsp
    omega
  · rfl

theorem mem_leftPad (c : UInt8) (ts : Bytes) (h : c ∈ ts) : c ∈ leftPad ts := by
  unfold leftPad
  split
  · exact List.mem_append_right _ h
  · exact h

/-- The fields of a normalised text holding a non-digit byte that is not a sign at the head
of a field are rejected by `ParseInt`. -/
theorem decodeFields_nondigit (e : Time) (ts : Bytes) (i : Nat) (c : UInt8)
    (hlen : 10 ≤ ts.length) (hi : ts[i]? = some c) (hd : isDigit c = false)
    (hs : ¬ ((i = 0 ∨ (i = 10 ∧ 11 < ts.length)) ∧ isSign c)) :
    ∃ num kind, decodeFields e ts = .ok (e, some (.numError num kind)) := by
  have hil : i < ts.length := (List.getElem?_eq_some.mp hi).1
  by_cases h10 : i < 10
  · have hj : (ts.take 10)[i]? = some c := by rw [List.getElem?_take_of_lt h10]; exact hi
    obtain ⟨v, kind, hv⟩ := ParseInt_nondigit (ts.take 10) i c hj hd
      (fun h => hs ⟨Or.inl h.1, h.2.2⟩)
    exact ⟨_, kind, decodeFields_secErr e ts hlen v _ hv⟩
  · rcases hsec : ParseInt (ts.take 10) with ⟨sec, _ | err⟩
    · have hj : (ts.drop 10)[i - 10]? = some c := by
        rw [List.getElem?_drop, show 10 + (i - 10) = i by omega]; exact hi
      obtain ⟨v, kind, hv⟩ := ParseInt_nondigit (ts.drop 10) (i - 10) c hj hd (by
        rintro ⟨h1, h2, h3⟩
        rw [List.length_drop] at h2
        exact hs ⟨Or.inr ⟨by omega, by omega⟩, h3⟩)
      exact ⟨_, kind, decodeFields_nanoErr e ts (by omega) sec v _ hsec hv⟩
    · obtain ⟨kind, hk⟩ := ParseInt_err _ _ _ hsec
      exact ⟨_, kind, by rw [decodeFields_secErr e ts hlen sec err hsec, hk]⟩

/-- C17: an input with two or more `'.'` skips the fraction merge, loses only its first
`'.'`, and is rejected: a remaining `'.'` sits in the seconds field or in the trailing
field, and the call returns the `ParseInt` error, the target unchanged. -/
theorem unmarshal_many_dots_error (e : Time) (data : Bytes) (h : 2 ≤ List.count dot data) :
    normalize data = .ok (leftPad (stringsReplaceFirst dot data)) ∧
      dot ∈ leftPad (stringsReplaceFirst dot data) ∧
      ∃ num kind, UnmarshalJSON e data = .ok (e, some (.numError num kind)) := by
  have hn := normalize_many_dots data h
  have hmem : dot ∈ leftPad (stringsReplaceFirst dot data) := by
    apply mem_leftPad
    apply List.count_pos_iff.mp
    rw [count_stringsReplaceFirst]
    omega
  refine ⟨hn, hmem, ?_⟩
  obtain ⟨i, hi⟩ := List.getElem?_of_mem hmem
  rw [UnmarshalJSON_of_normalize e data _ hn]
  exact decodeFields_nondigit e _ i dot (leftPad_length _) hi (by decide)
    (fun hc => absurd hc.2 (by decide))

/-- Witness for C17: `"1.2.3"` is rejected on its seconds field `"00000012.3"`. -/
theorem unmarshal_many_dots_error_witness :
    ∃ num kind, UnmarshalJSON ⟨0, 0⟩ (ascii "1.2.3") =
      .ok (⟨0, 0⟩, some (.numError num kind)) :=
  (unmarshal_many_dots_error ⟨0, 0⟩ (ascii "1.2.3") (by decide)).2.2

/-! ## Signs at the head of a field -/

theorem ParseUint_digits (s : Bytes) (hne : s ≠ []) (hs : allDigits s)
    (hlt : decVal s < 18446744073709551616) : ParseUint s = .value (decVal s) := by
  unfold ParseUint
  rw [if_neg hne]
  exact parseUintLoop_digits s 0 hs hlt

theorem ParseInt_minus (d : Bytes) (hne : d ≠ []) (hd : allDigits d)
    (hlt : decVal d < 9223372036854775808) :
    ParseInt (minusByte :: d) = (-(decVal d : Int), none) := by
  have hu := ParseUint_digits d hne hd (by omega)
  have hw : wrap64 ((decVal d : Nat) : Int) = (decVal d : Int) :=
    wrap64_of_fits (by omega) (by omega)
  have hw2 : wrap64 (-((decVal d : Nat) : Int)) = -(decVal d : Int) :=
    wrap64_of_fits (by omega) (by omega)
  simp only [ParseInt, or_true, if_true, hu, decide_True, Bool.not_true, hw, hw2]
  rw [if_neg (by simp), if_neg (by omega)]

theorem ParseInt_plus (d : Bytes) (hne : d ≠ []) (hd : allDigits d)
    (hlt : decVal d < 9223372036854775808) :
    ParseInt (plusByte :: d) = ((decVal d : Int), none) := by
  have hu := ParseUint_digits d hne hd (by omega)
  have hw : wrap64 ((decVal d : Nat) : Int) = (decVal d : Int) :=
    wrap64_of_fits (by omega) (by omega)
  have hpm : plusByte ≠ minusByte := by decide
  simp only [ParseInt, true_or, if_true, hu, hpm, decide_False, Bool.not_false, hw]
  rw [if_neg (by omega), if_neg (by simp)]
  simp

theorem tdiv_billion (n : Int) :
    Int.tdiv n 1000000000 = if 0 ≤ n then n / 1000000000 else -((-n) / 1000000000) := by
  by_cases h : 0 ≤ n
  · rw [if_pos h, Int.tdiv_eq_ediv h (by decide)]
  · rw [if_neg h]
    have e : n = -(-n) := by omega
    rw [e, Int.neg_tdiv, Int.tdiv_eq_ediv (by omega) (by decide)]
    simp

/-- Go `time.Unix` on an offset in `(-10^9, 0)`: one second is borrowed. -/
theorem timeUnix_of_small_neg (sec nsec : Int) (h1 : -9223372036854775807 ≤ sec)
    (h2 : sec ≤ 9223372036854775807) (h3 : -1000000000 < nsec) (h4 : nsec < 0) :
    timeUnix sec nsec = ⟨sec - 1, nsec + 1000000000⟩ := by
  have ht : Int.tdiv nsec 1000000000 = 0 := by
    rw [tdiv_billion, if_neg (by omega)]; omega
  unfold timeUnix
  rw [if_pos (Or.inl h4)]
  simp only [ht, Int.add_zero, Int.zero_mul]
  have w0 : wrap64 0 = 0 := by decide
  rw [w0, Int.sub_zero, wrap64_of_fits (x := sec) (by omega) (by omega),
    wrap64_of_fits (x := nsec) (by omega) (by omega), if_pos h4,
    wrap64_of_fits (x := sec - 1) (by omega) (by omega),
    wrap64_of_fits (x := nsec + 1000000000) (by omega) (by omega)]

theorem not_dot_mem_cons_sign (c : UInt8) (d : Bytes) (hc : c ≠ dot) (hd : allDigits d) :
    dot ∉ c :: d := by
  intro hm
  rcases List.mem_cons.mp hm with h | h
  · exact hc h.symm
  · exact dot_not_mem_of_allDigits hd h

/-- Decoding of a sign followed by nine digits. -/
theorem UnmarshalJSON_signed_seconds (e : Time) (c : UInt8) (d : Bytes) (v : Int)
    (hc : c ≠ dot) (hd : allDigits d) (hl : d.length = 9)
    (hp : ParseInt (c :: d) = (v, none)) :
    UnmarshalJSON e (c :: d) = .ok (⟨v, 0⟩, none) := by
  have hn := normalize_of_no_dot (c :: d) (not_dot_mem_cons_sign c d hc hd)
  have hlen : (c :: d).length = 10 := by rw [List.length_cons, hl]
  rw [if_neg (by omega)] at hn
  have ht : (c :: d).take 10 = c :: d := List.take_of_length_le (by omega)
  rw [UnmarshalJSON_of_normalize e _ _ hn,
    decodeFields_ten e _ hlen v (by rw [ht]; exact hp), hlen]
  simp only [inferUnit]
  rw [timeUnix_of_inRange _ _ (by omega) (by omega)]

/-- C18: a sign is accepted at the head of a field.  For nine digits `d`, `"-" ++ d`
decodes to `d` seconds before the epoch and `"+" ++ d` to `d` seconds after it; for ten
digits `s` and two digits `f`, `s ++ "-" ++ f` decodes to `s` seconds minus `f`
milliseconds after the epoch. -/
theorem unmarshal_signs_accepted (e : Time) (d s f : Bytes) (hd : allDigits d)
    (hdl : d.length = 9) (hs : allDigits s) (hsl : s.length = 10) (hf : allDigits f)
    (hfl : f.length = 2) :
    UnmarshalJSON e ([minusByte] ++ d) = .ok (⟨-(decVal d : Int), 0⟩, none) ∧
      UnmarshalJSON e ([plusByte] ++ d) = .ok (⟨(decVal d : Int), 0⟩, none) ∧
      ∃ t, UnmarshalJSON e (s ++ [minusByte] ++ f) = .ok (t, none) ∧ t.valid ∧
        t.nanos = (decVal s : Int) * 1000000000 - (decVal f : Int) * 1000000 := by
  have hdne : d ≠ [] := by
    intro h; rw [h] at hdl; simp at hdl
  have hfne : f ≠ [] := by
    intro h; rw [h] at hfl; simp at hfl
  have hdv := decVal_lt d hd
  rw [hdl] at hdv
  have hsv := decVal_lt s hs
  rw [hsl] at hsv
  have hfv := decVal_lt f hf
  rw [hfl] at hfv
  have hdv2 : decVal d < 1000000000 := by simpa using hdv
  have hsv2 : decVal s < 10000000000 := by simpa using hsv
  have hfv2 : decVal f < 100 := by simpa using hfv
  refine ⟨?_, ?_, ?_⟩
  · exact UnmarshalJSON_signed_seconds e minusByte d _ (by decide) hd hdl
      (ParseInt_minus d hdne hd (by omega))
  · exact UnmarshalJSON_signed_seconds e plusByte d _ (by decide) hd hdl
      (ParseInt_plus d hdne hd (by omega))
  · have hmf : allDigits f := hf
    have hnd : dot ∉ s ++ [minusByte] ++ f := by
      rw [List.append_assoc]
      intro hm
      rcases List.mem_append.mp hm with h | h
      · exact dot_not_mem_of_allDigits hs h
      · exact not_dot_mem_cons_sign minusByte f (by decide) hf h
    have hlen : (s ++ [minusByte] ++ f).length = 13 := by
      simp only [List.length_append, List.length_singleton, hsl, hfl]
    have hn := normalize_of_no_dot _ hnd
    rw [if_neg (by omega)] at hn
    have ht : (s ++ [minusByte] ++ f).take 10 = s := by
      rw [List.append_assoc]; exact List.take_left' hsl
    have hdr : (s ++ [minusByte] ++ f).drop 10 = minusByte :: f := by
      rw [List.append_assoc]; exact List.drop_left' hsl
    have hsec : ParseInt ((s ++ [minusByte] ++ f).take 10) = ((decVal s : Int), none) := by
      rw [ht]
      exact ParseInt_digits s (by intro h; rw [h] at hsl; simp at hsl) hs (by omega)
    have hnano : ParseInt ((s ++ [minusByte] ++ f).drop 10) = (-(decVal f : Int), none) := by
      rw [hdr]
      exact ParseInt_minus f hfne hf (by omega)
    rw [UnmarshalJSON_of_normalize e _ _ hn,
      decodeFields_long e _ (by omega) _ _ hsec hnano, hlen]
    simp only [inferUnit]
    rw [wrap64_of_fits (by omega) (by omega)]
    by_cases hz : decVal f = 0
    · refine ⟨_, rfl, ?_, ?_⟩
      · rw [hz, timeUnix_of_inRange _ _ (by simp) (by simp)]
        simp [Time.valid]
      · rw [hz, timeUnix_of_inRange _ _ (by simp) (by simp)]
        simp [Time.nanos]
    · refine ⟨_, rfl, ?_, ?_⟩
      · rw [timeUnix_of_small_neg _ _ (by omega) (by omega) (by omega) (by omega)]
        simp only [Time.valid]
        omega
      · rw [timeUnix_of_small_neg _ _ (by omega) (by omega) (by omega) (by omega)]
        simp only [Time.nanos]
        omega

/-- Witness for C18: `"-123456789"`, `"+123456789"` and `"1609459200-12"`. -/
theorem unmarshal_signs_accepted_witness :
    UnmarshalJSON ⟨0, 0⟩ (ascii "-123456789") = .ok (⟨-123456789, 0⟩, none) ∧
      UnmarshalJSON ⟨0, 0⟩ (ascii "+123456789") = .ok (⟨123456789, 0⟩, none) ∧
      ∃ t, UnmarshalJSON ⟨0, 0⟩ (ascii "1609459200-12") = .ok (t, none) ∧ t.valid ∧
        t.nanos = 1609459200 * 1000000000 - 12 * 1000000 :=
  unmarshal_signs_accepted ⟨0, 0⟩ (ascii "123456789") (ascii "1609459200") (ascii "12")
    (by decide) (by decide) (by decide) (by decide) (by decide) (by decide)

/-! ## A fraction after a short integer part -/

/-- C19: for `P1` of at most seven digits and `P2` of at most three digits,
`P1 ++ "." ++ P2` decodes with success to exactly `N` whole seconds after the epoch, `N`
being the value of `P1 ++ P2` right-padded with zeros to three fractional digits. -/
theorem unmarshal_short_fraction_as_seconds (e : Time) (p1 p2 : Bytes) (h1 : allDigits p1)
    (h2 : allDigits p2) (hl1 : p1.length ≤ 7) (hl2 : p2.length ≤ 3) :
    UnmarshalJSON e (p1 ++ [dot] ++ p2) =
      .ok (⟨(decVal (p1 ++ p2 ++ zeros (3 - p2.length)) : Int), 0⟩, none) := by
  have heq : UnmarshalJSON e (p1 ++ [dot] ++ p2) =
      UnmarshalJSON e (p1 ++ p2 ++ zeros (3 - p2.length)) := by
    unfold UnmarshalJSON
    rw [normalize_one_dot p1 p2 (dot_not_mem_of_allDigits h1) (dot_not_mem_of_allDigits h2)
      hl2]
  have hall : allDigits (p1 ++ p2 ++ zeros (3 - p2.length)) :=
    allDigits_append.mpr ⟨allDigits_append.mpr ⟨h1, h2⟩, allDigits_zeros _⟩
  have hlen : (p1 ++ p2 ++ zeros (3 - p2.length)).length = p1.length + 3 := by
    simp only [List.length_append, length_zeros]; omega
  rw [heq]
  by_cases h10 : (p1 ++ p2 ++ zeros (3 - p2.length)).length < 10
  · exact (UnmarshalJSON_short e _ hall h10).1
  · have hten : (p1 ++ p2 ++ zeros (3 - p2.length)).length = 10 := by omega
    have ht : (p1 ++ p2 ++ zeros (3 - p2.length)).take 10 =
        p1 ++ p2 ++ zeros (3 - p2.length) := List.take_of_length_le (by omega)
    have hdr : (p1 ++ p2 ++ zeros (3 - p2.length)).drop 10 = [] :=
      List.drop_eq_nil_of_le (by omega)
    rw [UnmarshalJSON_digits e _ hall (Or.inl hten), ht, hdr]
    simp [decVal, decValFrom]

/-- Witness for C19: `"5.5"` decodes to 5500 seconds after the epoch. -/
theorem unmarshal_short_fraction_as_seconds_witness :
    UnmarshalJSON ⟨0, 0⟩ (ascii "5.5") = .ok (⟨5500, 0⟩, none) :=
  unmarshal_short_fraction_as_seconds ⟨0, 0⟩ (ascii "5") (ascii "5") (by decide) (by decide)
    (by decide) (by decide)

end Epoch
